import Mathlib

/-!
Verification of the ARM-template comparison engine of the IaC-for-AzureFw
repository (`src/libraries/CompareUtils.py`, with name helpers from
`src/libraries/CommonUtils.py` and the IP-group formatter from
`src/libraries/YamlUtils.py`).

JSON values are modelled by the inductive type `Json` (numbers as integers;
the templates under comparison carry integer and string scalars).  Python
dictionaries are association lists in insertion order, matching CPython's
ordered dicts.  Each Python function of the comparison engine is embedded as
an executable Lean definition carrying the same name where possible.
-/

namespace AzFw

/-- A JSON-like value: the data the comparison engine operates on. -/
inductive Json where
  | null : Json
  | bool : Bool → Json
  | num : Int → Json
  | str : String → Json
  | arr : List Json → Json
  | obj : List (String × Json) → Json
deriving Inhabited

mutual

/-- Decidable equality for `Json` (the derive handler does not support the
nested `List` occurrences, so it is spelled out). -/
def Json.decEq : (a b : Json) → Decidable (a = b)
  | .null, .null => .isTrue rfl
  | .bool x, .bool y =>
      if h : x = y then .isTrue (h ▸ rfl) else .isFalse (fun he => h (Json.bool.inj he))
  | .num x, .num y =>
      if h : x = y then .isTrue (h ▸ rfl) else .isFalse (fun he => h (Json.num.inj he))
  | .str x, .str y =>
      if h : x = y then .isTrue (h ▸ rfl) else .isFalse (fun he => h (Json.str.inj he))
  | .arr xs, .arr ys =>
      match Json.decEqList xs ys with
      | .isTrue h => .isTrue (h ▸ rfl)
      | .isFalse h => .isFalse (fun he => h (Json.arr.inj he))
  | .obj xs, .obj ys =>
      match Json.decEqKVs xs ys with
      | .isTrue h => .isTrue (h ▸ rfl)
      | .isFalse h => .isFalse (fun he => h (Json.obj.inj he))
  | .null, .bool _ => .isFalse (fun he => Json.noConfusion he)
  | .null, .num _ => .isFalse (fun he => Json.noConfusion he)
  | .null, .str _ => .isFalse (fun he => Json.noConfusion he)
  | .null, .arr _ => .isFalse (fun he => Json.noConfusion he)
  | .null, .obj _ => .isFalse (fun he => Json.noConfusion he)
  | .bool _, .null => .isFalse (fun he => Json.noConfusion he)
  | .bool _, .num _ => .isFalse (fun he => Json.noConfusion he)
  | .bool _, .str _ => .isFalse (fun he => Json.noConfusion he)
  | .bool _, .arr _ => .isFalse (fun he => Json.noConfusion he)
  | .bool _, .obj _ => .isFalse (fun he => Json.noConfusion he)
  | .num _, .null => .isFalse (fun he => Json.noConfusion he)
  | .num _, .bool _ => .isFalse (fun he => Json.noConfusion he)
  | .num _, .str _ => .isFalse (fun he => Json.noConfusion he)
  | .num _, .arr _ => .isFalse (fun he => Json.noConfusion he)
  | .num _, .obj _ => .isFalse (fun he => Json.noConfusion he)
  | .str _, .null => .isFalse (fun he => Json.noConfusion he)
  | .str _, .bool _ => .isFalse (fun he => Json.noConfusion he)
  | .str _, .num _ => .isFalse (fun he => Json.noConfusion he)
  | .str _, .arr _ => .isFalse (fun he => Json.noConfusion he)
  | .str _, .obj _ => .isFalse (fun he => Json.noConfusion he)
  | .arr _, .null => .isFalse (fun he => Json.noConfusion he)
  | .arr _, .bool _ => .isFalse (fun he => Json.noConfusion he)
  | .arr _, .num _ => .isFalse (fun he => Json.noConfusion he)
  | .arr _, .str _ => .isFalse (fun he => Json.noConfusion he)
  | .arr _, .obj _ => .isFalse (fun he => Json.noConfusion he)
  | .obj _, .null => .isFalse (fun he => Json.noConfusion he)
  | .obj _, .bool _ => .isFalse (fun he => Json.noConfusion he)
  | .obj _, .num _ => .isFalse (fun he => Json.noConfusion he)
  | .obj _, .str _ => .isFalse (fun he => Json.noConfusion he)
  | .obj _, .arr _ => .isFalse (fun he => Json.noConfusion he)

/-- Decidable equality for lists of `Json`. -/
def Json.decEqList : (xs ys : List Json) → Decidable (xs = ys)
  | [], [] => .isTrue rfl
  | [], _ :: _ => .isFalse (fun he => List.noConfusion he)
  | _ :: _, [] => .isFalse (fun he => List.noConfusion he)
  | x :: xs, y :: ys =>
      match Json.decEq x y with
      | .isTrue h1 =>
          match Json.decEqList xs ys with
          | .isTrue h2 => .isTrue (h1 ▸ h2 ▸ rfl)
          | .isFalse h2 => .isFalse (fun he => h2 (List.cons.inj he).2
            )
      | .isFalse h1 => .isFalse (fun he => h1 (List.cons.inj he).1)

/-- Decidable equality for key/value lists. -/
def Json.decEqKVs : (xs ys : List (String × Json)) → Decidable (xs = ys)
  | [], [] => .isTrue rfl
  | [], _ :: _ => .isFalse (fun he => List.noConfusion he)
  | _ :: _, [] => .isFalse (fun he => List.noConfusion he)
  | (k, v) :: xs, (k', v') :: ys =>
      if hk : k = k' then
        match Json.decEq v v' with
        | .isTrue h1 =>
            match Json.decEqKVs xs ys with
            | .isTrue h2 => .isTrue (hk ▸ h1 ▸ h2 ▸ rfl)
            | .isFalse h2 => .isFalse (fun he => h2 (List.cons.inj he).2)
        | .isFalse h1 =>
            .isFalse (fun he => h1 (congrArg Prod.snd (List.cons.inj he).1))
      else .isFalse (fun he => hk (congrArg Prod.fst (List.cons.inj he).1))

end

instance : DecidableEq Json := Json.decEq

/-- First-match lookup in an association list (Python `dict[k]` / `k in dict`;
keys are unique in dicts parsed from JSON, so first match is the match). -/
def lookupKey {α : Type} : List (String × α) → String → Option α
  | [], _ => none
  | (k, v) :: rest, key => if k = key then some v else lookupKey rest key

/-- Python `k in dict`. -/
def containsKey {α : Type} (l : List (String × α)) (k : String) : Bool :=
  (lookupKey l k).isSome

/-- Keys of an association list, in order. -/
def keysOf {α : Type} (l : List (String × α)) : List String :=
  l.map Prod.fst

/-- Python `dict[k] = v`: replace the value at an existing key in place,
else append the binding at the end (CPython insertion-order semantics). -/
def upsert : List (String × Json) → String → Json → List (String × Json)
  | [], k, v => [(k, v)]
  | (k', v') :: rest, k, v =>
      if k' = k then (k', v) :: rest else (k', v') :: upsert rest k v

/-! ## Character classes and string helpers

Python regexes are embedded as explicit character-list parsers.  Only the
ASCII whitespace characters are modelled for `\s` (the templates under
comparison are ASCII). -/

/-- The single-quote character. -/
def sq : Char := Char.ofNat 39

/-- The double-quote character. -/
def dq : Char := Char.ofNat 34

/-- A quote character, i.e. a member of the regex class matched by two
consecutive quote characters in a raw pattern. -/
def isQuoteChar (c : Char) : Bool := c = sq || c = dq

/-- Python regex `\s` restricted to ASCII. -/
def isSpaceChar (c : Char) : Bool :=
  c = ' ' || c = Char.ofNat 9 || c = Char.ofNat 10 || c = Char.ofNat 13
    || c = Char.ofNat 11 || c = Char.ofNat 12

/-- Python regex `\d` restricted to ASCII. -/
def isDigitChar (c : Char) : Bool := '0' ≤ c && c ≤ '9'

/-- Python regex class `[a-z0-9]`. -/
def isLowerAlnum (c : Char) : Bool := ('a' ≤ c && c ≤ 'z') || isDigitChar c

/-- Python regex class `[\s\-]`. -/
def isSpaceDash (c : Char) : Bool := isSpaceChar c || c = '-'

/-- `CommonUtils.remove_date_suffix`, first substitution: the regex
`_\d{8}$` can only match at the unique position nine characters before the
end, so `re.sub(..., '', name)` either strips those nine characters or
leaves the string unchanged. -/
def rds1 (cs : List Char) : List Char :=
  if 9 ≤ cs.length ∧ (cs.drop (cs.length - 8)).all isDigitChar
      ∧ cs[cs.length - 9]? = some '_' then
    cs.take (cs.length - 9)
  else cs

/-- Match condition of the second `remove_date_suffix` regex
`[-_]\d{8}_[a-z0-9]+$` at position `p`: a dash or underscore, eight
digits, an underscore, then a non-empty run of `[a-z0-9]` reaching the
end of the string. -/
def rds2cond (cs : List Char) (p : Nat) : Bool :=
  (cs[p]? == some '-' || cs[p]? == some '_')
  && ((cs.drop (p + 1)).take 8).all isDigitChar
  && (cs[p + 9]? == some '_')
  && decide (p + 10 < cs.length)
  && (cs.drop (p + 10)).all isLowerAlnum

/-- `CommonUtils.remove_date_suffix`, second substitution: `re.sub` deletes
the leftmost match of `[-_]\d{8}_[a-z0-9]+$` (which necessarily extends to
the end of the string). -/
def rds2 (cs : List Char) : List Char :=
  match (List.range cs.length).find? (rds2cond cs) with
  | some p => cs.take p
  | none => cs

/-- `CommonUtils.remove_date_suffix`: strips `_YYYYMMDD` and
`[-_]YYYYMMDD_<alnum>` style suffixes; falsy input maps to `""`. -/
def remove_date_suffix (name : String) : String :=
  if name = "" then "" else ⟨rds2 (rds1 name.data)⟩

/-! ## The `[format(...)]` expression parser

`CompareUtils.normalize_resource_name` matches the raw name against
`\[format\(\s*['"]([^'"]*)['"]\s*,\s*['"]([^'"]*)['"](?:\s*,\s*['"]([^'"]*)['"])*\s*\)\]`
with `re.match` (a prefix match: trailing characters are ignored).  The
pattern is deterministic — `[^'"]*` stops exactly at the next quote — so
it is embedded as a recursive-descent parser.  The repeated third group
keeps only its last repetition, exactly as Python's `match.group(3)`. -/

/-- Consume an expected literal character sequence, returning the rest. -/
def expectChars : List Char → List Char → Option (List Char)
  | [], cs => some cs
  | _ :: _, [] => none
  | p :: ps, c :: cs => if c = p then expectChars ps cs else none

/-- Scan `[^'"]*` up to and including a closing quote character,
returning the content and the remainder. -/
def scanQuoted : List Char → Option (List Char × List Char)
  | [] => none
  | c :: rest =>
      if isQuoteChar c then some ([], rest)
      else match scanQuoted rest with
        | some (g, r) => some (c :: g, r)
        | none => none

/-- Parse `['"][^'"]*['"]` (opening and closing quotes are matched
independently, as in the regex character classes). -/
def parseQuoted : List Char → Option (List Char × List Char)
  | [] => none
  | c :: rest => if isQuoteChar c then scanQuoted rest else none

/-- Parse `(?:\s*,\s*['"]([^'"]*)['"])*\s*\)\]`, keeping the last repeated
capture.  Each iteration consumes at least the comma, so any fuel beyond
the input length is never exhausted. -/
def parseArgs : Nat → Option (List Char) → List Char → Option (Option (List Char))
  | 0, _, _ => none
  | fuel + 1, acc, cs =>
      match cs.dropWhile isSpaceChar with
      | c :: cs2 =>
          if c = ',' then
            match parseQuoted (cs2.dropWhile isSpaceChar) with
            | some (g, cs3) => parseArgs fuel (some g) cs3
            | none => none
          else
            match expectChars [')', ']'] (c :: cs2) with
            | some _ => some acc
            | none => none
      | [] => none

/-- Prefix-match the whole format pattern, returning the captures
(format string, first argument, optional last repeated argument). -/
def parseFormat (cs : List Char) : Option (List Char × List Char × Option (List Char)) :=
  match expectChars (("[format(").data) cs with
  | none => none
  | some cs1 =>
      match parseQuoted (cs1.dropWhile isSpaceChar) with
      | none => none
      | some (g1, cs2) =>
          match cs2.dropWhile isSpaceChar with
          | c :: cs3 =>
              if c = ',' then
                match parseQuoted (cs3.dropWhile isSpaceChar) with
                | none => none
                | some (g2, cs4) =>
                    match parseArgs (cs4.length + 1) none cs4 with
                    | some g3 => some (g1, g2, g3)
                    | none => none
              else none
          | [] => none

/-- Python `str.replace`: replace every non-overlapping occurrence of
`pat`, scanning left to right.  Each step consumes at least one character,
so fuel beyond the input length is never exhausted. -/
def replaceAllGo (pat rep : List Char) : Nat → List Char → List Char
  | _, [] => []
  | 0, cs => cs
  | fuel + 1, c :: cs =>
      match expectChars pat (c :: cs) with
      | some rest => rep ++ replaceAllGo pat rep fuel rest
      | none => c :: replaceAllGo pat rep fuel cs

/-- Python `str.replace` (for the non-empty patterns used here). -/
def replaceAll (pat rep cs : List Char) : List Char :=
  replaceAllGo pat rep (cs.length + 1) cs

/-- The loop `for i, param in enumerate(params): result =
result.replace(f'\x7b\x7bi\x7d\x7d', param)` of `normalize_resource_name`:
substitute positional placeholders sequentially. -/
def applyParams (fmt : List Char) (params : List (List Char)) : List Char :=
  (params.enum).foldl
    (fun res ip =>
      replaceAll (Char.ofNat 123 :: ((toString ip.1).data ++ [Char.ofNat 125])) ip.2 res)
    fmt

/-- `CompareUtils.normalize_resource_name` on a string: the format branch
substitutes the placeholders and returns the result as is (no recursive
normalization, no suffix stripping); otherwise date suffixes are removed.
`params` gets the repeated capture only when it is truthy, mirroring
`if match.group(3):` (which is `False` both for `None` and for `''`). -/
def strNormalize (s : String) : String :=
  match parseFormat s.data with
  | some (g1, g2, g3) =>
      let params := [g2] ++ (match g3 with
        | some g => if g = [] then [] else [g]
        | none => [])
      ⟨applyParams g1 params⟩
  | none => remove_date_suffix s

/-- `CompareUtils.normalize_resource_name`: non-string values (including
`None`) fail the `isinstance(name_value, str)` guard and are returned
unchanged. -/
def normalize_resource_name : Json → Json
  | .str s => .str (strNormalize s)
  | j => j

/-! ## `CommonUtils.normalize_name` and `YamlUtils.format_ip_group` -/

/-- One pass of `re.sub(r'[\s\-]+|_-_', '_', name)`: at each position try
the greedy whitespace/dash run first, then the literal `_-_`, else copy the
character.  Fuel beyond the input length is never exhausted. -/
def collapseGo : Nat → List Char → List Char
  | _, [] => []
  | 0, cs => cs
  | fuel + 1, c :: cs =>
      if isSpaceDash c then '_' :: collapseGo fuel (cs.dropWhile isSpaceDash)
      else match c, cs with
        | '_', '-' :: '_' :: rest => '_' :: collapseGo fuel rest
        | _, _ => c :: collapseGo fuel cs

/-- `CommonUtils.normalize_name`: collapse whitespace/dash runs and the
literal `_-_` to single underscores; falsy input maps to `""`. -/
def normalize_name (name : String) : String :=
  if name = "" then "" else ⟨collapseGo (name.data.length + 1) name.data⟩

/-- Scan `[^']+` up to and including a closing single quote. -/
def scanSq : List Char → Option (List Char × List Char)
  | [] => none
  | c :: rest =>
      if c = sq then some ([], rest)
      else match scanSq rest with
        | some (g, r) => some (c :: g, r)
        | none => none

/-- Prefix-match `\[parameters\('([^']+)'\)\]` (a `re.match`, so trailing
characters are ignored), returning the capture. -/
def parseParamRef (cs : List Char) : Option (List Char) :=
  match expectChars (("[parameters('").data) cs with
  | none => none
  | some r =>
      match scanSq r with
      | some (x, r2) =>
          if x = [] then none
          else match expectChars ((")]").data) r2 with
            | some _ => some x
            | none => none
      | none => none

/-- Try the IP-group path regex at one position: one of the two literal
alternatives followed by a non-empty maximal run of `[^/\s]` (whose
following character is then necessarily in the `(?:\s|$|/|\'|")` set). -/
def ipNameAt (cs : List Char) : Option (List Char) :=
  match expectChars (("/Microsoft.Network/ipGroups/").data) cs with
  | some r =>
      match r.takeWhile (fun c => !(isSpaceChar c) && c ≠ '/') with
      | [] => none
      | run => some run
  | none =>
      match expectChars (("/ipGroups/").data) cs with
      | some r =>
          match r.takeWhile (fun c => !(isSpaceChar c) && c ≠ '/') with
          | [] => none
          | run => some run
      | none => none

/-- `re.search` for the IP-group path pattern: try every position left to
right. -/
def ipPathName : List Char → Option (List Char)
  | [] => none
  | c :: cs =>
      match ipNameAt (c :: cs) with
      | some n => some n
      | none => ipPathName cs

/-- `YamlUtils.format_ip_group` with explicit recursion fuel: a recursive
call only happens on the strictly shorter captured parameter name, so fuel
beyond the input length is never exhausted. -/
def format_ip_group_go : Nat → String → String
  | 0, _ => ""
  | fuel + 1, ipg =>
      if ipg = "" then ""
      else match parseParamRef ipg.data with
        | some x =>
            if x.contains '/' then format_ip_group_go fuel ⟨x⟩
            else normalize_name ⟨x⟩
        | none =>
            match ipPathName ipg.data with
            | some n => normalize_name ⟨n⟩
            | none => normalize_name ipg

/-- `YamlUtils.format_ip_group`: extract the bare IP-group name from a
parameter reference or a resource path, else normalize the raw string. -/
def format_ip_group (ipg : String) : String :=
  format_ip_group_go (ipg.length + 1) ipg

/-- Stable insertion into a sorted list: the new element goes before the
first element not strictly below it.  Together with `sortBy` this is a
stable sort, hence agrees with Python's (stable) `sorted` whenever `le`
is a total preorder. -/
def insertSorted {α : Type} (le : α → α → Bool) (x : α) : List α → List α
  | [] => [x]
  | y :: ys => if le x y then x :: y :: ys else y :: insertSorted le x ys

/-- Stable sort by a boolean comparison (models Python `sorted`). -/
def sortBy {α : Type} (le : α → α → Bool) : List α → List α
  | [] => []
  | x :: xs => insertSorted le x (sortBy le xs)

/-! ## Recursive passes over JSON trees

Each Python helper that walks a JSON document becomes a mutual definition
over `Json`, `List Json` and the key/value lists, mirroring the dict/list
branches of the source. -/

/-- Lexicographic `≤` on character lists by code point: exactly Python's
string comparison (and agreeing with Lean's `String` order, whose library
decidability procedure does not reduce in the kernel). -/
def strLeB : List Char → List Char → Bool
  | [], _ => true
  | _ :: _, [] => false
  | a :: as, b :: bs =>
      if a.toNat < b.toNat then true
      else if b.toNat < a.toNat then false
      else strLeB as bs

/-- Comparison of keyed items by key (Python `sorted(d.items())`; keys of a
parsed JSON object are unique, so the tuple comparison never reaches the
values). -/
def keyLe {α : Type} (a b : String × α) : Bool := strLeB a.1.data b.1.data

/-- Python `<=` on the primitive values that the engine sorts.  Booleans
compare as their integer values, exactly as in Python.  Comparing a number
with a string raises `TypeError` in Python; that unreachable case is given
an arbitrary fixed order here (numbers and booleans below strings), and
container values (on which Python would also raise) compare as always-`le`. -/
def primLe : Json → Json → Bool
  | .bool x, .bool y => !x || y
  | .bool x, .num m => decide ((if x then (1 : Int) else 0) ≤ m)
  | .num n, .bool y => decide (n ≤ (if y then (1 : Int) else 0))
  | .num n, .num m => decide (n ≤ m)
  | .str s, .str t => strLeB s.data t.data
  | .num _, .str _ => true
  | .bool _, .str _ => true
  | .str _, .num _ => false
  | .str _, .bool _ => false
  | _, _ => true

mutual

/-- `CompareUtils.normalize_resource_names_in_json`: normalize the value of
every key literally equal to `name` (without recursing into it), recurse
everywhere else. -/
def normalize_resource_names_in_json : Json → Json
  | .obj kvs => .obj (nrnKVs kvs)
  | .arr xs => .arr (nrnList xs)
  | j => j
termination_by structural j => j

/-- List branch of `normalize_resource_names_in_json`. -/
def nrnList : List Json → List Json
  | [] => []
  | x :: xs => normalize_resource_names_in_json x :: nrnList xs
termination_by structural l => l

/-- Dict branch of `normalize_resource_names_in_json`. -/
def nrnKVs : List (String × Json) → List (String × Json)
  | [] => []
  | (k, v) :: rest =>
      (if k = "name" then (k, normalize_resource_name v)
       else (k, normalize_resource_names_in_json v)) :: nrnKVs rest
termination_by structural l => l

end

mutual

/-- `CompareUtils.remove_ignored_keys`: recursively drop the ignored keys. -/
def remove_ignored_keys (ign : List String) : Json → Json
  | .obj kvs => .obj (rikKVs ign kvs)
  | .arr xs => .arr (rikList ign xs)
  | j => j
termination_by structural j => j

/-- List branch of `remove_ignored_keys`. -/
def rikList (ign : List String) : List Json → List Json
  | [] => []
  | x :: xs => remove_ignored_keys ign x :: rikList ign xs
termination_by structural l => l

/-- Dict branch of `remove_ignored_keys`. -/
def rikKVs (ign : List String) : List (String × Json) → List (String × Json)
  | [] => []
  | (k, v) :: rest =>
      if ign.contains k then rikKVs ign rest
      else (k, remove_ignored_keys ign v) :: rikKVs ign rest
termination_by structural l => l

end

/-- `isinstance(x, dict)`. -/
def isDictB : Json → Bool
  | .obj _ => true
  | _ => false

/-- `'name' in item` for a dict item. -/
def hasNameKey : Json → Bool
  | .obj kvs => containsKey kvs "name"
  | _ => false

/-- `isinstance(item, (str, int, float, bool))`. -/
def isPrimB : Json → Bool
  | .str _ => true
  | .num _ => true
  | .bool _ => true
  | _ => false

/-- The sort key `lambda x: x['name']` used by `handle_empty_and_missing`
(the guard ensures the key is present). -/
def nameVal : Json → Json
  | .obj kvs => (lookupKey kvs "name").getD .null
  | _ => .null

/-- Comparison by the `name` member, as in `sorted(data, key=lambda x: x['name'])`. -/
def nameLe (a b : Json) : Bool := primLe (nameVal a) (nameVal b)

mutual

/-- `CompareUtils.handle_empty_and_missing`: sort name-keyed dict lists and
primitive lists (without recursing into list elements — the source's list
branch returns without recursion), recurse into dict values with keys
sorted, and turn `None` into an empty list.  Python sorts the dict items
first and then maps over the values; since the key comparison ignores the
values, that equals mapping first and stably sorting, which is the order
used here so that the recursion is structural. -/
def handle_empty_and_missing : Json → Json
  | .arr xs =>
      if xs.all isDictB && xs.all hasNameKey then .arr (sortBy nameLe xs)
      else if xs.all isPrimB then .arr (sortBy primLe xs)
      else .arr xs
  | .obj kvs => .obj (sortBy keyLe (hemKVs kvs))
  | .null => .arr []
  | j => j
termination_by structural j => j

/-- Dict branch of `handle_empty_and_missing`. -/
def hemKVs : List (String × Json) → List (String × Json)
  | [] => []
  | (k, v) :: rest => (k, handle_empty_and_missing v) :: hemKVs rest
termination_by structural l => l

end

/-- Keys of a JSON object (`set(item.keys())`). -/
def keysOfObj : Json → List String
  | .obj kvs => keysOf kvs
  | _ => []

/-- The sort key chosen by `normalize_keys_for_comparison` for a list:
the first of `name`, `id`, `type` present in every element (an empty list
yields no key, as `common_keys` is then the empty set; a non-dict element
yields no key, as the source only reaches this point when all elements are
dicts). -/
def findSortKey (xs : List Json) : Option String :=
  if xs.isEmpty then none
  else (["name", "id", "type"]).find? (fun k => xs.all (fun x => (keysOfObj x).contains k))

/-- `x.get(sort_key, '')`. -/
def sortKeyVal (k : String) (x : Json) : Json :=
  match x with
  | .obj kvs => (lookupKey kvs k).getD (.str "")
  | _ => .str ""

mutual

/-- `CompareUtils.normalize_keys_for_comparison`: sort dict items by key and
recurse; for a list of dicts sharing a priority key, stably sort by that
key's original value and recurse into each element.  Python sorts first and
recurses afterwards; here each element is paired with its original sort key
so that the recursion is structural, and the stable sort of the decorated
list reproduces Python's order exactly. -/
def normalize_keys_for_comparison : Json → Json
  | .obj kvs => .obj (sortBy keyLe (nkcKVs kvs))
  | .arr xs =>
      match findSortKey xs with
      | some k => .arr ((sortBy (fun a b => primLe a.1 b.1) (nkcPair k xs)).map Prod.snd)
      | none => .arr (nkcList xs)
  | j => j
termination_by structural j => j

/-- List branch of `normalize_keys_for_comparison`. -/
def nkcList : List Json → List Json
  | [] => []
  | x :: xs => normalize_keys_for_comparison x :: nkcList xs
termination_by structural l => l

/-- Decorated list branch of `normalize_keys_for_comparison`: pair each
element's original sort-key value with its normalization. -/
def nkcPair (k : String) : List Json → List (Json × Json)
  | [] => []
  | x :: xs => (sortKeyVal k x, normalize_keys_for_comparison x) :: nkcPair k xs
termination_by structural l => l

/-- Dict branch of `normalize_keys_for_comparison`. -/
def nkcKVs : List (String × Json) → List (String × Json)
  | [] => []
  | (k, v) :: rest => (k, normalize_keys_for_comparison v) :: nkcKVs rest
termination_by structural l => l

end

mutual

/-- An injective-by-construction serialization used only to give `canon` a
total order on sibling array elements (string contents are length-prefixed). -/
def ser : Json → String
  | .null => "n"
  | .bool b => if b then "t" else "f"
  | .num n => "i" ++ toString n ++ ";"
  | .str s => "s" ++ toString s.length ++ ":" ++ s
  | .arr xs => "[" ++ String.intercalate (",") (serList xs) ++ "]"
  | .obj kvs => "\x7b" ++ String.intercalate (",") (serKVs kvs) ++ "\x7d"
termination_by structural j => j

/-- `ser` on lists. -/
def serList : List Json → List String
  | [] => []
  | x :: xs => ser x :: serList xs
termination_by structural l => l

/-- `ser` on key/value lists. -/
def serKVs : List (String × Json) → List String
  | [] => []
  | (k, v) :: rest => (toString k.length ++ ":" ++ k ++ "=" ++ ser v) :: serKVs rest
termination_by structural l => l

end

/-- Total order on `Json` via serialization. -/
def serLe (a b : Json) : Bool := strLeB (ser a).data (ser b).data

mutual

/-- Canonical form modelling the emptiness of
`DeepDiff(a, b, ignore_order=True, report_repetition=True)`: the diff of
two values is empty exactly when they agree up to reordering of object
keys and array elements at every level, i.e. when their canonical forms
(all levels sorted) coincide. -/
def canon : Json → Json
  | .arr xs => .arr (sortBy serLe (canonList xs))
  | .obj kvs => .obj (sortBy keyLe (canonKVs kvs))
  | j => j
termination_by structural j => j

/-- `canon` on lists. -/
def canonList : List Json → List Json
  | [] => []
  | x :: xs => canon x :: canonList xs
termination_by structural l => l

/-- `canon` on key/value lists. -/
def canonKVs : List (String × Json) → List (String × Json)
  | [] => []
  | (k, v) :: rest => (k, canon v) :: canonKVs rest
termination_by structural l => l

end

/-- Whether `DeepDiff(a, b, ignore_order=True, report_repetition=True)` is
non-empty (`bool(diff)` in the source). -/
def deepDiffHas (a b : Json) : Bool := decide (¬ (canon a = canon b))

mutual

/-- Python `repr` for the values appearing in templates (string escaping
subtleties are not modelled; the claims only exercise scalar fields). -/
def pythonRepr : Json → String
  | .null => "None"
  | .bool true => "True"
  | .bool false => "False"
  | .num n => toString n
  | .str s => ⟨[sq]⟩ ++ s ++ ⟨[sq]⟩
  | .arr xs => "[" ++ String.intercalate (", ") (reprList xs) ++ "]"
  | .obj kvs => "\x7b" ++ String.intercalate (", ") (reprKVs kvs) ++ "\x7d"
termination_by structural j => j

/-- `pythonRepr` on lists. -/
def reprList : List Json → List String
  | [] => []
  | x :: xs => pythonRepr x :: reprList xs
termination_by structural l => l

/-- `pythonRepr` on key/value lists. -/
def reprKVs : List (String × Json) → List String
  | [] => []
  | (k, v) :: rest => (⟨[sq]⟩ ++ k ++ ⟨[sq]⟩ ++ ": " ++ pythonRepr v) :: reprKVs rest
termination_by structural l => l

end

/-- Python `str()` as used by f-string interpolation. -/
def pythonStr : Json → String
  | .str s => s
  | j => pythonRepr j

/-! ## Logical resource identification and the comparison engine -/

/-- The rule-collection-group resource type. -/
def RCG_TYPE : String := "Microsoft.Network/firewallPolicies/ruleCollectionGroups"

/-- The firewall-policy resource type. -/
def POLICY_TYPE : String := "Microsoft.Network/firewallPolicies"

/-- `resource_name.split('/')` last element. -/
def lastSegment (s : String) : String :=
  ⟨(s.data.reverse.takeWhile (fun c => c ≠ '/')).reverse⟩

/-- `resource_name.split('-')[0]`. -/
def beforeFirstDash (s : String) : String :=
  ⟨s.data.takeWhile (fun c => c ≠ '-')⟩

/-- `CompareUtils.extract_logical_resource_identifier`.  A resource that is
not a dict or lacks `type` or `name` yields `None`.  With a non-string
normalized name the Python source would raise in the rule-collection-group
membership test or the policy `.split` (names in real templates are
strings); that unreachable case is modelled by the generic f-string branch. -/
def extract_logical_resource_identifier (resource : Json) : Option String :=
  match resource with
  | .obj kvs =>
      match lookupKey kvs "type", lookupKey kvs "name" with
      | some tp, some nm0 =>
          match normalize_resource_name nm0 with
          | .str s =>
              if tp = .str RCG_TYPE && s.data.contains '/' then
                some ("RCG:" ++ lastSegment s)
              else if tp = .str POLICY_TYPE then
                some ("Policy:" ++ beforeFirstDash s)
              else
                some (pythonStr tp ++ ":" ++ s)
          | nm => some (pythonStr tp ++ ":" ++ pythonStr nm)
      | _, _ => none
  | _ => none

/-- The loop of `CompareUtils.extract_logical_resources`: successive
last-write-wins insertion into the logical-id dictionary (a non-dict
element, or one lacking `type`/`name`, produces no identifier and is
skipped). -/
def extractAux : List (String × Json) → List Json → List (String × Json)
  | acc, [] => acc
  | acc, r :: rest =>
      match extract_logical_resource_identifier r with
      | some i => extractAux (upsert acc i r) rest
      | none => extractAux acc rest

/-- `CompareUtils.extract_logical_resources`. -/
def extract_logical_resources (resources_list : List Json) : List (String × Json) :=
  extractAux [] resources_list

/-- The per-pair preprocessing of `compare_resource_collections`: name
normalization, removal of the ignored `dependsOn` keys, then the
empty/missing pass. -/
def prepResource (r : Json) : Json :=
  handle_empty_and_missing (remove_ignored_keys (["dependsOn"]) (normalize_resource_names_in_json r))

/-- Whether the `DeepDiff` of a matched resource pair (after per-pair
preprocessing) is non-empty. -/
def pairHasDiff (a b : Json) : Bool := deepDiffHas (prepResource a) (prepResource b)

/-- One entry of the `values_changed` mapping.  The source additionally
reconstructs sparse minimal before/after sub-trees and re-keys diff paths
by rule names (`extract_minimal_diff`, `parse_path_with_names`); that
presentation-only payload is derived from the processed pair stored here
and does not affect which identifiers appear in `values_changed`. -/
structure ChangeEntry where
  import_name : Json
  export_name : Json
  import_processed : Json
  export_processed : Json
deriving DecidableEq, Inhabited

/-- The categorized result of `compare_resource_collections`. -/
structure ResourceDiffResult where
  import_only : List (String × Json)
  export_only : List (String × Json)
  values_changed : List (String × ChangeEntry)
deriving DecidableEq, Inhabited

/-- `import_logical[res_id].get('name', res_id)` and its export twin. -/
def mkChangeEntry (resId : String) (a b : Json) : ChangeEntry :=
  { import_name := (match a with
      | .obj kvs => (lookupKey kvs "name").getD (.str resId)
      | _ => .str resId)
    export_name := (match b with
      | .obj kvs => (lookupKey kvs "name").getD (.str resId)
      | _ => .str resId)
    import_processed := prepResource a
    export_processed := prepResource b }

/-- `CompareUtils.compare_resource_collections`: index both sides by
logical identifier, split the key sets, and keep in `values_changed`
exactly the common identifiers whose preprocessed contents differ.  (The
source iterates Python sets, whose order is unspecified; entries here
follow the import-side dictionary order, which does not affect membership.) -/
def compare_resource_collections (import_resources export_resources : List Json) :
    ResourceDiffResult :=
  let il := extract_logical_resources import_resources
  let el := extract_logical_resources export_resources
  { import_only := il.filter (fun kv => !(containsKey el kv.1))
    export_only := el.filter (fun kv => !(containsKey il kv.1))
    values_changed := il.filterMap (fun kv =>
      match lookupKey el kv.1 with
      | some b => if pairHasDiff kv.2 b then some (kv.1, mkChangeEntry kv.1 kv.2 b) else none
      | none => none) }

/-- Python truthiness for JSON values (`if not import_data or not export_data`). -/
def jsonTruthy : Json → Bool
  | .null => false
  | .bool b => b
  | .num n => decide (n ≠ 0)
  | .str s => decide (s ≠ "")
  | .arr xs => !xs.isEmpty
  | .obj kvs => !kvs.isEmpty

/-- `copy.pop('resources', []) if 'resources' in copy else []`: remove and
return the `resources` value.  A truthy non-list `resources` value would be
iterated by Python downstream; that unreachable-for-ARM case is modelled as
the empty list. -/
def popResources : Json → List Json × Json
  | .obj kvs =>
      match lookupKey kvs "resources" with
      | some (.arr xs) => (xs, .obj (kvs.filter (fun kv => kv.1 ≠ "resources")))
      | some _ => ([], .obj (kvs.filter (fun kv => kv.1 ≠ "resources")))
      | none => ([], .obj kvs)
  | j => ([], j)

/-- The report returned by `compare_arm_templates`.  In the load-failure
branch the Python dict carries only `success`, `error`, the file paths and
the two `*_data_loaded` booleans; `has_differences` and `resource_diff`
are defaulted in the record (false/empty) since the keys are absent. -/
structure CompareReport where
  success : Bool
  error : Option String
  import_data_loaded : Bool
  export_data_loaded : Bool
  has_differences : Bool
  resource_diff : ResourceDiffResult
deriving DecidableEq, Inhabited

/-- The error report of `compare_arm_templates` (`import_data is not None`
and `export_data is not None` become the two flags). -/
def loadFailureReport (il el : Bool) : CompareReport :=
  { success := false
    error := some ("Failed to load one or both JSON files")
    import_data_loaded := il
    export_data_loaded := el
    has_differences := false
    resource_diff := ⟨[], [], []⟩ }

/-- `CompareUtils.compare_arm_templates` after file loading: the two
arguments are the results of `load_json_file` (which yields `None` — here
`none` — on any I/O or parse failure; the function itself performs no
fallible operation, modelling "never raises" by totality).  A falsy loaded
document takes the same failure branch as a failed load.  The non-resource
top-level parts are compared after key normalization; `has_differences`
is `bool(diff) or` the non-emptiness of the three resource categories. -/
def compare_arm_templates (import_data export_data : Option Json) : CompareReport :=
  match import_data, export_data with
  | some imp, some expd =>
      if jsonTruthy imp && jsonTruthy expd then
        let impN := normalize_resource_names_in_json imp
        let expN := normalize_resource_names_in_json expd
        let pi := popResources impN
        let pe := popResources expN
        let topHas := deepDiffHas (normalize_keys_for_comparison pi.2)
          (normalize_keys_for_comparison pe.2)
        let rdiff := compare_resource_collections pi.1 pe.1
        { success := true
          error := none
          import_data_loaded := true
          export_data_loaded := true
          has_differences := topHas || !rdiff.import_only.isEmpty
            || !rdiff.export_only.isEmpty || !rdiff.values_changed.isEmpty
          resource_diff := rdiff }
      else loadFailureReport true true
  | some _, none => loadFailureReport true false
  | none, some _ => loadFailureReport false true
  | none, none => loadFailureReport false false

/-- Replace the value found under a path of dictionary keys (used to state
the empty/null-equivalence property): descends only through objects,
replacing the value at every binding of the final key; a non-object along
the path, an absent key, or an empty path leaves the tree unchanged. -/
def setField : Json → List String → Json → Json
  | .obj kvs, [k], v => .obj (kvs.map (fun kv => if kv.1 = k then (kv.1, v) else kv))
  | .obj kvs, k :: rest, v =>
      .obj (kvs.map (fun kv => if kv.1 = k then (kv.1, setField kv.2 rest v) else kv))
  | j, _, _ => j

/-! # Theorems -/

/-- Claim C7: if either input file is malformed or unreadable JSON — i.e.
`load_json_file` returned `None` for it — then `compare_arm_templates`
returns a report with `success = false` and the error message, and (being
a total function past loading) does not raise. -/
theorem compare_arm_templates_load_failure (import_data export_data : Option Json)
    (h : import_data = none ∨ export_data = none) :
    (compare_arm_templates import_data export_data).success = false ∧
    (compare_arm_templates import_data export_data).error =
      some ("Failed to load one or both JSON files") := by
  rcases h with h | h
  · subst h
    cases export_data <;> simp [compare_arm_templates, loadFailureReport]
  · subst h
    cases import_data <;> simp [compare_arm_templates, loadFailureReport]

/-- Witness for C7 at a concrete input: a failed import load next to a
well-formed export document. -/
theorem compare_arm_templates_load_failure_witness :
    (compare_arm_templates none (some (.obj [("resources", .arr [])]))).success = false ∧
    (compare_arm_templates none (some (.obj [("resources", .arr [])]))).error =
      some ("Failed to load one or both JSON files") :=
  compare_arm_templates_load_failure none (some (.obj [("resources", .arr [])])) (Or.inl rfl)

/-- Counterexample to claim C9: on `None` the normalizer fails the
`isinstance(..., str)` guard and returns `None` itself, not the empty
string. -/
theorem normalize_resource_name_none_cex :
    normalize_resource_name .null = .null ∧ normalize_resource_name .null ≠ .str "" := by
  decide

/-- Claim C9 (amended): the empty string maps to the empty string, while
`None` is returned unchanged (`None`, not `""`); both without raising. -/
theorem normalize_resource_name_empty_and_none :
    normalize_resource_name (.str "") = .str "" ∧ normalize_resource_name .null = .null := by
  decide

/-- Claim C10 (amended): a loaded document that is valid JSON but falsy
(such as the empty object) takes the same failure branch as a parse
failure — `success = false` with the same error message — but the report's
`import_data_loaded` flag still records that the document parsed. -/
theorem compare_arm_templates_falsy_document (export_data : Option Json) :
    (compare_arm_templates (some (.obj [])) export_data).success = false ∧
    (compare_arm_templates (some (.obj [])) export_data).error =
      some ("Failed to load one or both JSON files") ∧
    (compare_arm_templates (some (.obj [])) export_data).import_data_loaded = true := by
  cases export_data with
  | none => simp [compare_arm_templates, loadFailureReport]
  | some e =>
      simp [compare_arm_templates, jsonTruthy, loadFailureReport]

/-- Counterexample to the indistinguishability part of claim C10: the
reports for an empty-object input and for a parse failure agree on
`success` and `error` but differ at `import_data_loaded`, so the two
situations are distinguishable at the public interface. -/
theorem falsy_document_distinguishable_cex :
    (compare_arm_templates (some (.obj [])) none).success = false ∧
    (compare_arm_templates none none).success = false ∧
    (compare_arm_templates (some (.obj [])) none).error =
      (compare_arm_templates none none).error ∧
    (compare_arm_templates (some (.obj [])) none).import_data_loaded = true ∧
    (compare_arm_templates none none).import_data_loaded = false ∧
    compare_arm_templates (some (.obj [])) none ≠ compare_arm_templates none none := by
  decide

/-- Counterexample to claim C4: the format branch returns the substituted
string without stripping date suffixes, so a second application strips a
suffix the first one left in place — normalization is not idempotent. -/
theorem normalize_resource_name_not_idempotent_cex :
    normalize_resource_name (.str "[format('{0}', 'A_20250627_abcdef')]")
      = .str "A_20250627_abcdef" ∧
    normalize_resource_name (.str "A_20250627_abcdef") = .str "A" ∧
    normalize_resource_name
        (normalize_resource_name (.str "[format('{0}', 'A_20250627_abcdef')]"))
      ≠ normalize_resource_name (.str "[format('{0}', 'A_20250627_abcdef')]") := by
  decide

/-- Counterexample to claim C3: the format branch does not recursively
normalize its result — the date/hash suffix of the first component is kept,
so the example does not normalize to the same string as `Policy/RCG_Name`. -/
theorem normalize_resource_name_format_no_recursive_cex :
    normalize_resource_name
        (.str "[format('{0}/{1}', 'Policy_20250627_v7wlxg', 'RCG_Name')]")
      = .str "Policy_20250627_v7wlxg/RCG_Name" ∧
    normalize_resource_name (.str "Policy/RCG_Name") = .str "Policy/RCG_Name" ∧
    normalize_resource_name
        (.str "[format('{0}/{1}', 'Policy_20250627_v7wlxg', 'RCG_Name')]")
      ≠ normalize_resource_name (.str "Policy/RCG_Name") := by
  decide

/-- Counterexample to claim C5: `normalize_resource_name` (the name
normalizer used for resource names) has no parameter-reference branch; a
`[parameters('X')]` string matches neither the format pattern nor a date
suffix and is returned verbatim rather than as `X` with hyphens collapsed. -/
theorem normalize_resource_name_parameters_unchanged_cex :
    normalize_resource_name (.str "[parameters('My-Policy')]")
      = .str "[parameters('My-Policy')]" ∧
    normalize_resource_name (.str "[parameters('My-Policy')]") ≠ .str "My_Policy" := by
  decide

/-- Counterexample to claim C2: with two resources sharing a logical
identifier but differing in content, last-write-wins indexing pairs
different resources once the `resources` array is permuted, and the
comparison reports a difference for documents that are permutations of
each other. -/
theorem compare_arm_templates_perm_duplicate_ids_cex :
    (compare_arm_templates
        (some (.obj [("resources", .arr
          [.obj [("type", .str "T"), ("name", .str "N"), ("p", .num 1)],
           .obj [("type", .str "T"), ("name", .str "N"), ("p", .num 2)]])]))
        (some (.obj [("resources", .arr
          [.obj [("type", .str "T"), ("name", .str "N"), ("p", .num 2)],
           .obj [("type", .str "T"), ("name", .str "N"), ("p", .num 1)]])]))).has_differences
      = true ∧
    (compare_resource_collections
        [.obj [("type", .str "T"), ("name", .str "N"), ("p", .num 1)],
         .obj [("type", .str "T"), ("name", .str "N"), ("p", .num 2)]]
        [.obj [("type", .str "T"), ("name", .str "N"), ("p", .num 2)],
         .obj [("type", .str "T"), ("name", .str "N"), ("p", .num 1)]]).values_changed ≠ [] := by
  decide

/-- Membership in the keys of an association list. -/
theorem mem_keysOf {α : Type} {l : List (String × α)} {k : String} :
    k ∈ keysOf l ↔ ∃ v, (k, v) ∈ l := by
  constructor
  · intro h
    rcases List.mem_map.mp h with ⟨kv, hm, hk⟩
    exact ⟨kv.2, by rwa [show (k, kv.2) = kv from by rw [← hk]]⟩
  · rintro ⟨v, hm⟩
    exact List.mem_map.mpr ⟨(k, v), hm, rfl⟩

/-- `containsKey` decides key membership. -/
theorem containsKey_iff {α : Type} {l : List (String × α)} {k : String} :
    containsKey l k = true ↔ k ∈ keysOf l := by
  induction l with
  | nil => simp [containsKey, lookupKey, keysOf]
  | cons kv rest ih =>
      obtain ⟨k', v⟩ := kv
      by_cases h : k' = k
      · subst h
        simp [containsKey, lookupKey, keysOf]
      · simpa [containsKey, lookupKey, keysOf, h, Ne.symm h] using ih

/-- Absent keys have `containsKey = false`. -/
theorem containsKey_eq_false {α : Type} {l : List (String × α)} {k : String}
    (h : k ∉ keysOf l) : containsKey l k = false := by
  cases hc : containsKey l k
  · rfl
  · exact absurd (containsKey_iff.mp hc) h

/-- A successful lookup is a membership. -/
theorem mem_of_lookupKey_eq_some {α : Type} {l : List (String × α)} {k : String} {v : α}
    (h : lookupKey l k = some v) : (k, v) ∈ l := by
  induction l with
  | nil => simp [lookupKey] at h
  | cons kv rest ih =>
      obtain ⟨k', v'⟩ := kv
      by_cases hk : k' = k
      · subst hk
        simp [lookupKey] at h
        simp [h]
      · simp [lookupKey, hk] at h
        exact List.mem_cons_of_mem _ (ih h)

/-- With duplicate-free keys, membership determines the lookup. -/
theorem lookupKey_eq_some_of_mem {α : Type} {l : List (String × α)}
    (hnd : (keysOf l).Nodup) {k : String} {v : α}
    (hm : (k, v) ∈ l) : lookupKey l k = some v := by
  induction l with
  | nil => simp at hm
  | cons kv rest ih =>
      obtain ⟨k', v'⟩ := kv
      simp only [keysOf, List.map_cons, List.nodup_cons] at hnd
      rcases List.mem_cons.mp hm with h | h
      · obtain ⟨hk, hv⟩ := Prod.mk.inj h.symm
        subst hk
        simp [lookupKey, hv]
      · have hk : k' ≠ k := by
          rintro rfl
          exact hnd.1 (mem_keysOf.mpr ⟨v, h⟩)
        simp [lookupKey, hk]
        exact ih hnd.2 h

/-- `upsert` does not create new keys for a present key, and appends an
absent key at the end. -/
theorem keysOf_upsert (l : List (String × Json)) (k : String) (v : Json) :
    keysOf (upsert l k v) = if containsKey l k then keysOf l else keysOf l ++ [k] := by
  induction l with
  | nil => simp [upsert, keysOf, containsKey, lookupKey]
  | cons kv rest ih =>
      obtain ⟨k', v'⟩ := kv
      by_cases h : k' = k
      · subst h
        simp [upsert, keysOf, containsKey, lookupKey]
      · simp only [upsert, h, if_false, keysOf, List.map_cons, containsKey, lookupKey]
        simp only [containsKey] at ih
        by_cases hc : (lookupKey rest k).isSome
        · simp [hc] at ih ⊢
          exact ih
        · simp [hc] at ih ⊢
          exact ih

/-- `upsert` preserves duplicate-freeness of the keys. -/
theorem nodup_keysOf_upsert {l : List (String × Json)} (hnd : (keysOf l).Nodup)
    (k : String) (v : Json) : (keysOf (upsert l k v)).Nodup := by
  rw [keysOf_upsert]
  by_cases hc : containsKey l k
  · simp [hc, hnd]
  · have hk : k ∉ keysOf l := fun hm => hc (containsKey_iff.mpr hm)
    simp [hc, List.nodup_append, hnd, hk]

/-- The logical-resource index has duplicate-free keys. -/
theorem extractAux_nodup (rs : List Json) :
    ∀ (acc : List (String × Json)), (keysOf acc).Nodup →
      (keysOf (extractAux acc rs)).Nodup := by
  induction rs with
  | nil => intro acc h; simpa [extractAux] using h
  | cons r rest ih =>
      intro acc h
      cases hid : extract_logical_resource_identifier r with
      | none => simpa [extractAux, hid] using ih acc h
      | some i =>
          simp only [extractAux, hid]
          exact ih _ (nodup_keysOf_upsert h i r)

/-- The logical-resource index has duplicate-free keys. -/
theorem extract_logical_resources_nodup (rs : List Json) :
    (keysOf (extract_logical_resources rs)).Nodup :=
  extractAux_nodup rs [] (by simp [keysOf])

/-- Claim C8: the LogicalId computation.  For a resource with string-valued
`type` and `name`: a rule-collection group whose normalized name contains a
slash maps to `RCG:` plus the last slash-separated segment; a firewall
policy maps to `Policy:` plus the segment of the normalized name before the
first dash; every other type maps to `type:normalizedName`; and a value
that is not a dict, or lacks `type` or `name`, yields no identifier and is
skipped by the indexing (hence can never be matched or reported). -/
theorem extract_logical_resource_identifier_spec
    (kvs : List (String × Json)) (T N : String)
    (h1 : lookupKey kvs "type" = some (.str T))
    (h2 : lookupKey kvs "name" = some (.str N)) :
    (T = RCG_TYPE → (strNormalize N).data.contains '/' = true →
      extract_logical_resource_identifier (.obj kvs)
        = some ("RCG:" ++ lastSegment (strNormalize N))) ∧
    (T = POLICY_TYPE →
      extract_logical_resource_identifier (.obj kvs)
        = some ("Policy:" ++ beforeFirstDash (strNormalize N))) ∧
    (T ≠ RCG_TYPE → T ≠ POLICY_TYPE →
      extract_logical_resource_identifier (.obj kvs)
        = some (T ++ ":" ++ strNormalize N)) ∧
    (∀ (r : Json) (rs : List Json) (acc : List (String × Json)),
      extract_logical_resource_identifier r = none →
        extractAux acc (r :: rs) = extractAux acc rs) ∧
    (∀ kvs2 : List (String × Json),
      lookupKey kvs2 "type" = none ∨ lookupKey kvs2 "name" = none →
        extract_logical_resource_identifier (.obj kvs2) = none) := by
  refine ⟨?_, ?_, ?_, ?_, ?_⟩
  · rintro rfl hslash
    have hmem : '/' ∈ (strNormalize N).data := by simpa using hslash
    simp only [extract_logical_resource_identifier, h1, h2, normalize_resource_name]
    simp [hmem]
  · rintro rfl
    have hne : (Json.str POLICY_TYPE) ≠ (Json.str RCG_TYPE) := by decide
    simp [extract_logical_resource_identifier, h1, h2, normalize_resource_name, hne]
  · intro hR hP
    have hne1 : (Json.str T) ≠ (Json.str RCG_TYPE) := fun h => hR (Json.str.inj h)
    have hne2 : (Json.str T) ≠ (Json.str POLICY_TYPE) := fun h => hP (Json.str.inj h)
    simp [extract_logical_resource_identifier, h1, h2, normalize_resource_name,
      hne1, hne2, pythonStr]
  · intro r rs acc hid
    simp [extractAux, hid]
  · intro kvs2 h
    rcases h with h | h <;> simp [extract_logical_resource_identifier, h]

/-- Witness for C8 at a concrete input: a generic resource type. -/
theorem extract_logical_resource_identifier_spec_witness :
    extract_logical_resource_identifier
        (.obj [("type", .str "X"), ("name", .str "A/B")])
      = some ("X" ++ ":" ++ strNormalize "A/B") :=
  (extract_logical_resource_identifier_spec
      [("type", .str "X"), ("name", .str "A/B")] "X" "A/B" rfl rfl).2.2.1
    (by decide) (by decide)

/-- Claim C1: `compare_resource_collections` partitions the logical
identifiers: an identifier is in `import_only` exactly when it is indexed
from A but not B, in `export_only` exactly when indexed from B but not A,
in `values_changed` exactly when indexed from both with a non-empty
normalized diff of the matched pair, and never in two categories; an
identifier indexed from both with identical normalized content is in none. -/
theorem compare_resource_collections_partition (A B : List Json) (id : String) :
    ((id ∈ keysOf (compare_resource_collections A B).import_only) ↔
      (id ∈ keysOf (extract_logical_resources A) ∧
       id ∉ keysOf (extract_logical_resources B))) ∧
    ((id ∈ keysOf (compare_resource_collections A B).export_only) ↔
      (id ∈ keysOf (extract_logical_resources B) ∧
       id ∉ keysOf (extract_logical_resources A))) ∧
    ((id ∈ keysOf (compare_resource_collections A B).values_changed) ↔
      (∃ a b, lookupKey (extract_logical_resources A) id = some a ∧
              lookupKey (extract_logical_resources B) id = some b ∧
              pairHasDiff a b = true)) ∧
    ¬(id ∈ keysOf (compare_resource_collections A B).import_only ∧
      id ∈ keysOf (compare_resource_collections A B).export_only) ∧
    ¬(id ∈ keysOf (compare_resource_collections A B).import_only ∧
      id ∈ keysOf (compare_resource_collections A B).values_changed) ∧
    ¬(id ∈ keysOf (compare_resource_collections A B).export_only ∧
      id ∈ keysOf (compare_resource_collections A B).values_changed) := by
  have ndA := extract_logical_resources_nodup A
  have ndB := extract_logical_resources_nodup B
  set il := extract_logical_resources A with hil
  set el := extract_logical_resources B with hel
  have himp : (id ∈ keysOf (compare_resource_collections A B).import_only) ↔
      (id ∈ keysOf il ∧ id ∉ keysOf el) := by
    simp only [compare_resource_collections, ← hil, ← hel]
    constructor
    · intro h
      rcases mem_keysOf.mp h with ⟨v, hv⟩
      rcases List.mem_filter.mp hv with ⟨hm, hp⟩
      refine ⟨mem_keysOf.mpr ⟨v, hm⟩, fun hmem => ?_⟩
      rw [Bool.not_eq_true'] at hp
      rw [containsKey_iff.mpr hmem] at hp
      simp at hp
    · rintro ⟨h1, h2⟩
      rcases mem_keysOf.mp h1 with ⟨v, hv⟩
      refine mem_keysOf.mpr ⟨v, List.mem_filter.mpr ⟨hv, ?_⟩⟩
      simp [containsKey_eq_false h2]
  have hexp : (id ∈ keysOf (compare_resource_collections A B).export_only) ↔
      (id ∈ keysOf el ∧ id ∉ keysOf il) := by
    simp only [compare_resource_collections, ← hil, ← hel]
    constructor
    · intro h
      rcases mem_keysOf.mp h with ⟨v, hv⟩
      rcases List.mem_filter.mp hv with ⟨hm, hp⟩
      refine ⟨mem_keysOf.mpr ⟨v, hm⟩, fun hmem => ?_⟩
      rw [Bool.not_eq_true'] at hp
      rw [containsKey_iff.mpr hmem] at hp
      simp at hp
    · rintro ⟨h1, h2⟩
      rcases mem_keysOf.mp h1 with ⟨v, hv⟩
      refine mem_keysOf.mpr ⟨v, List.mem_filter.mpr ⟨hv, ?_⟩⟩
      simp [containsKey_eq_false h2]
  have hvc : (id ∈ keysOf (compare_resource_collections A B).values_changed) ↔
      (∃ a b, lookupKey il id = some a ∧ lookupKey el id = some b ∧
        pairHasDiff a b = true) := by
    simp only [compare_resource_collections, ← hil, ← hel]
    constructor
    · intro h
      rcases mem_keysOf.mp h with ⟨e, he⟩
      rcases List.mem_filterMap.mp he with ⟨kv, hm, hf⟩
      rcases hb : lookupKey el kv.1 with _ | b
      · simp [hb] at hf
      · rcases hd : pairHasDiff kv.2 b with _ | _
        · simp [hb, hd] at hf
        · simp only [hb, hd, if_true] at hf
          have hkey : kv.1 = id := congrArg Prod.fst (Option.some.inj hf)
          subst hkey
          exact ⟨kv.2, b, lookupKey_eq_some_of_mem ndA
            (by rcases kv with ⟨k, v⟩; exact hm), hb, hd⟩
    · rintro ⟨a, b, ha, hb, hd⟩
      refine mem_keysOf.mpr ⟨mkChangeEntry id a b, List.mem_filterMap.mpr
        ⟨(id, a), mem_of_lookupKey_eq_some ha, ?_⟩⟩
      simp [hb, hd]
  refine ⟨himp, hexp, hvc, ?_, ?_, ?_⟩
  · rintro ⟨h1, h2⟩
    exact (himp.mp h1).2 (hexp.mp h2).1
  · rintro ⟨h1, h2⟩
    rcases (hvc.mp h2) with ⟨a, b, _, hb, _⟩
    exact (himp.mp h1).2 (mem_keysOf.mpr ⟨b, mem_of_lookupKey_eq_some hb⟩)
  · rintro ⟨h1, h2⟩
    rcases (hvc.mp h2) with ⟨a, b, ha, _, _⟩
    exact (hexp.mp h1).2 (mem_keysOf.mpr ⟨a, mem_of_lookupKey_eq_some ha⟩)

/-- Counterexample to claim C6: `handle_empty_and_missing` does not recurse
into list elements, so a `destinationFqdns` that is `null` in one resource
and `[]` in the other — nested inside an array, as rule fields are — is not
converted, the pair's diff is non-empty, and the pair lands in
`values_changed`. -/
theorem null_empty_array_nested_cex :
    (compare_resource_collections
        [.obj [("type", .str "T"), ("name", .str "N"),
          ("properties", .obj [("cols", .arr
            [.obj [("name", .str "c"), ("destinationFqdns", .null)]])])]]
        [.obj [("type", .str "T"), ("name", .str "N"),
          ("properties", .obj [("cols", .arr
            [.obj [("name", .str "c"), ("destinationFqdns", .arr [])]])])]]).values_changed
      ≠ [] := by
  decide


/-! ## Parser lemmas for the name normalizers -/

/-- Consuming an expected literal prefix succeeds on exactly that prefix. -/
theorem expectChars_front (p t : List Char) : expectChars p (p ++ t) = some t := by
  induction p with
  | nil => simp [expectChars]
  | cons c cs ih => simp [expectChars, ih]

/-- `scanSq` on quote-free content followed by a quote. -/
theorem scanSq_with_content (g : List Char) (hg : ∀ c ∈ g, c ≠ sq) (r : List Char) :
    scanSq (g ++ sq :: r) = some (g, r) := by
  induction g with
  | nil => simp [scanSq]
  | cons c cs ih =>
      have hc : c ≠ sq := hg c (by simp)
      have ih' := ih (fun x hx => hg x (by simp [hx]))
      simp only [List.cons_append, scanSq, hc, if_false, List.append_eq, ih']

/-- Dropping to a position strictly inside the list preserves the last
element. -/
theorem getLast?_drop_of_lt {α : Type} (cs : List α) (k : Nat) (hk : k < cs.length) :
    (cs.drop k).getLast? = cs.getLast? := by
  induction cs generalizing k with
  | nil => simp at hk
  | cons c rest ih =>
      cases k with
      | zero => simp
      | succ k =>
          simp only [List.length_cons, Nat.succ_lt_succ_iff] at hk
          have hrest : rest ≠ [] := by
            intro h
            subst h
            simp at hk
          rcases rest with _ | ⟨b, l⟩
          · simp at hk
          · rw [List.drop_succ_cons, ih k hk, List.getLast?_cons_cons]

/-- The first date-suffix substitution leaves strings whose last character
is not a digit unchanged. -/
theorem rds1_id_of_last {cs : List Char} {c : Char} (hc : cs.getLast? = some c)
    (hd : isDigitChar c = false) : rds1 cs = cs := by
  unfold rds1
  split
  · next h =>
      exfalso
      obtain ⟨h9, hall, _⟩ := h
      have hlt : cs.length - 8 < cs.length := by omega
      have hlast : (cs.drop (cs.length - 8)).getLast? = some c := by
        rw [getLast?_drop_of_lt cs _ hlt, hc]
      have hmem : c ∈ cs.drop (cs.length - 8) := List.mem_of_getLast?_eq_some hlast
      have := List.all_eq_true.mp hall c hmem
      rw [hd] at this
      exact Bool.false_ne_true this
  · rfl

/-- The second date-suffix substitution leaves strings whose last character
is not in `[a-z0-9]` unchanged. -/
theorem rds2_id_of_last {cs : List Char} {c : Char} (hc : cs.getLast? = some c)
    (ha : isLowerAlnum c = false) : rds2 cs = cs := by
  unfold rds2
  have hnone : ∀ p ∈ List.range cs.length, ¬ (rds2cond cs p = true) := by
    intro p _
    by_cases hp : p + 10 < cs.length
    · have hlast : (cs.drop (p + 10)).getLast? = some c := by
        rw [getLast?_drop_of_lt cs _ hp, hc]
      have hmem : c ∈ cs.drop (p + 10) := List.mem_of_getLast?_eq_some hlast
      have hfail : (cs.drop (p + 10)).all isLowerAlnum = false := by
        rw [List.all_eq_false]
        exact ⟨c, hmem, by simp [ha]⟩
      simp [rds2cond, hfail]
    · simp [rds2cond, hp]
  rw [List.find?_eq_none.mpr hnone]

/-- `remove_date_suffix` leaves strings whose last character is neither a
digit nor in `[a-z0-9]` unchanged. -/
theorem remove_date_suffix_id_of_last {s : String} {c : Char}
    (hc : s.data.getLast? = some c) (hd : isDigitChar c = false)
    (ha : isLowerAlnum c = false) : remove_date_suffix s = s := by
  have hne : s ≠ "" := by
    intro h
    subst h
    simp at hc
  unfold remove_date_suffix
  rw [if_neg hne, rds1_id_of_last hc hd, rds2_id_of_last hc ha]

/-- Construction lemma: the parameter-reference parser on a well-formed
parameter expression. -/
theorem parseParamRef_construct (X : List Char) (hne : ¬ (X = []))
    (hq : ∀ c ∈ X, c ≠ sq) :
    parseParamRef (("[parameters('").data ++ (X ++ ("')]").data)) = some X := by
  have h1 : scanSq (X ++ ("')]").data) = some (X, ((")]").data)) := by
    have hd : ("')]").data = sq :: ((")]").data) := by decide
    rw [hd]
    exact scanSq_with_content X hq _
  unfold parseParamRef
  rw [expectChars_front]
  dsimp only
  rw [h1]
  dsimp only
  rw [if_neg hne]
  rfl

/-- Claim C5 (amended): the resource-name normalizer returns
`[parameters('X')]` strings unchanged (they match neither the format
pattern nor a date suffix); the parameter-reference unwrapping described by
the specification is performed by the IP-group formatter `format_ip_group`,
which returns `X` with whitespace/hyphen runs collapsed to underscores. -/
theorem format_ip_group_parameters_spec (X : String)
    (hne : X ≠ "") (hq : ∀ c ∈ X.data, c ≠ sq) (hs : '/' ∉ X.data) :
    format_ip_group ("[parameters('" ++ X ++ "')]") = normalize_name X ∧
    normalize_resource_name (.str ("[parameters('" ++ X ++ "')]"))
      = .str ("[parameters('" ++ X ++ "')]") := by
  have hdata : ("[parameters('" ++ X ++ "')]").data
      = ("[parameters('").data ++ (X.data ++ ("')]").data) := by
    show ("[parameters('").data ++ (X ++ "')]").data = _
    show ("[parameters('").data ++ (X.data ++ ("')]").data) = _
    rfl
  have hXne : ¬ (X.data = []) := by
    intro h
    exact hne (by cases X; simp at h; simp [h])
  have hpp : parseParamRef (("[parameters('" ++ X ++ "')]").data) = some X.data := by
    rw [hdata]
    exact parseParamRef_construct X.data hXne hq
  constructor
  · unfold format_ip_group
    have hne2 : ("[parameters('" ++ X ++ "')]") ≠ "" := by
      intro h
      have := congrArg String.data h
      rw [hdata] at this
      simp at this
    unfold format_ip_group_go
    rw [if_neg hne2, hpp]
    have hcont : X.data.contains '/' = false := by
      cases hcc : X.data.contains '/'
      · rfl
      · exact absurd (by simpa using hcc) hs
    simp only [hcont, Bool.false_eq_true, if_false]
  · have htail : (("')]").data).getLast? = some ']' := by decide
    have hlast : ("[parameters('" ++ X ++ "')]").data.getLast? = some ']' := by
      rw [hdata, List.getLast?_append, List.getLast?_append, htail]
      rfl
    have hfmt : parseFormat (("[parameters('" ++ X ++ "')]").data) = none := by
      rw [hdata]
      rfl
    show Json.str (strNormalize _) = _
    unfold strNormalize
    rw [hfmt, remove_date_suffix_id_of_last hlast (by decide) (by decide)]

/-- Witness for C5 at a concrete input. -/
theorem format_ip_group_parameters_spec_witness :
    format_ip_group ("[parameters('" ++ "My-Policy" ++ "')]") = normalize_name "My-Policy" ∧
    normalize_resource_name (.str ("[parameters('" ++ "My-Policy" ++ "')]"))
      = .str ("[parameters('" ++ "My-Policy" ++ "')]") :=
  format_ip_group_parameters_spec "My-Policy" (by decide) (by decide) (by decide)


/-- `scanQuoted` on quote-free content followed by any quote character. -/
theorem scanQuoted_with_content (g : List Char) (hg : ∀ c ∈ g, isQuoteChar c = false)
    (q : Char) (hq : isQuoteChar q = true) (r : List Char) :
    scanQuoted (g ++ q :: r) = some (g, r) := by
  induction g with
  | nil => simp [scanQuoted, hq]
  | cons c cs ih =>
      have hc : isQuoteChar c = false := hg c (by simp)
      have ih' := ih (fun x hx => hg x (by simp [hx]))
      simp only [List.cons_append, scanQuoted, hc, Bool.false_eq_true, if_false,
        List.append_eq, ih']

/-- `parseQuoted` on a single-quoted quote-free content. -/
theorem parseQuoted_quoted (g : List Char) (hg : ∀ c ∈ g, isQuoteChar c = false)
    (r : List Char) :
    parseQuoted (sq :: (g ++ sq :: r)) = some (g, r) := by
  have hq : isQuoteChar sq = true := by decide
  simp only [parseQuoted, hq, if_true]
  exact scanQuoted_with_content g hg sq hq r

/-- Unused fuel does not change a successful `parseArgs` run. -/
theorem parseArgs_mono (fuel : Nat) :
    ∀ (k : Nat) (acc : Option (List Char)) (cs : List Char) (r : Option (List Char)),
      parseArgs fuel acc cs = some r → parseArgs (fuel + k) acc cs = some r := by
  induction fuel with
  | zero =>
      intro k acc cs r h
      simp [parseArgs] at h
  | succ n ih =>
      intro k acc cs r h
      have hsh : n + 1 + k = (n + k) + 1 := by omega
      rw [hsh]
      rw [parseArgs] at h ⊢
      cases hdw : cs.dropWhile isSpaceChar with
      | nil =>
          rw [hdw] at h
          exact h
      | cons c cs2 =>
          rw [hdw] at h
          dsimp only at h ⊢
          by_cases hc : c = ','
          · rw [if_pos hc] at h ⊢
            cases hpq : parseQuoted (cs2.dropWhile isSpaceChar) with
            | none =>
                rw [hpq] at h
                simp at h
            | some gcs =>
                obtain ⟨g, cs3⟩ := gcs
                rw [hpq] at h
                dsimp only at h ⊢
                exact ih k (some g) cs3 r h
          · rw [if_neg hc] at h ⊢
            exact h

/-- The closing step of the argument loop. -/
theorem parseArgs_final (acc : Option (List Char)) :
    parseArgs 1 acc (')' :: ']' :: []) = some acc := rfl

/-- One comma-separated argument step of the loop. -/
theorem parseArgs_comma_step (fuel : Nat) (acc : Option (List Char)) (g : List Char)
    (hg : ∀ c ∈ g, isQuoteChar c = false) (r : List Char) :
    parseArgs (fuel + 1) acc (',' :: ' ' :: sq :: (g ++ sq :: r))
      = parseArgs fuel (some g) r := by
  have hsp : isSpaceChar ',' = false := by decide
  have hsp2 : isSpaceChar ' ' = true := by decide
  have hsp3 : isSpaceChar sq = false := by decide
  rw [parseArgs]
  rw [List.dropWhile_cons_of_neg (by simp [hsp])]
  dsimp only
  rw [if_pos rfl]
  rw [List.dropWhile_cons_of_pos (by simp [hsp2]),
    List.dropWhile_cons_of_neg (by simp [hsp3])]
  rw [parseQuoted_quoted g hg r]

/-- The format-expression parser on a well-formed two-argument format
expression with quote-free captures. -/
theorem parseFormat_construct (f a b : List Char)
    (hf : ∀ c ∈ f, isQuoteChar c = false)
    (ha : ∀ c ∈ a, isQuoteChar c = false)
    (hb : ∀ c ∈ b, isQuoteChar c = false) :
    parseFormat ((("[format('").data) ++ f ++ (("', '").data) ++ a
        ++ (("', '").data) ++ b ++ (("')]").data))
      = some (f, a, some b) := by
  have hsp3 : isSpaceChar sq = false := by decide
  have e1 : ("[format('").data = ("[format(").data ++ [sq] := by decide
  have e2 : ("', '").data = sq :: ',' :: ' ' :: sq :: [] := by decide
  have e3 : ("')]").data = sq :: ')' :: ']' :: [] := by decide
  have hshape : (("[format('").data) ++ f ++ (("', '").data) ++ a
        ++ (("', '").data) ++ b ++ (("')]").data)
      = ("[format(").data ++ (sq :: (f ++ (sq :: ',' :: ' ' :: sq ::
          (a ++ (sq :: ',' :: ' ' :: sq :: (b ++ sq :: ')' :: ']' :: [])))))) := by
    rw [e1, e2, e3]
    simp [List.append_assoc]
  rw [hshape]
  have hT2 : parseArgs ((',' :: ' ' :: sq :: (b ++ sq :: ')' :: ']' :: [])).length + 1)
      none (',' :: ' ' :: sq :: (b ++ sq :: ')' :: ']' :: [])) = some (some b) := by
    have base : parseArgs 2 none (',' :: ' ' :: sq :: (b ++ sq :: ')' :: ']' :: []))
        = some (some b) := by
      rw [show (2 : Nat) = 1 + 1 from rfl, parseArgs_comma_step 1 none b hb _]
      exact parseArgs_final (some b)
    have hlen : (',' :: ' ' :: sq :: (b ++ sq :: ')' :: ']' :: [])).length + 1
        = 2 + (b.length + 5) := by
      simp
      omega
    rw [hlen]
    exact parseArgs_mono 2 (b.length + 5) none _ _ base
  unfold parseFormat
  rw [expectChars_front]
  dsimp only
  rw [List.dropWhile_cons_of_neg (by simp [hsp3])]
  rw [parseQuoted_quoted f hf]
  dsimp only
  rw [List.dropWhile_cons_of_neg (by simp [(by decide : isSpaceChar ',' = false)])]
  dsimp only
  rw [if_pos rfl]
  rw [List.dropWhile_cons_of_pos (by simp [(by decide : isSpaceChar ' ' = true)]),
    List.dropWhile_cons_of_neg (by simp [hsp3])]
  rw [parseQuoted_quoted a ha]
  dsimp only
  rw [hT2]

/-- Claim C3 (amended): on a format expression with two quote-free literal
string arguments (the second one non-empty, as required by the truthiness
test on the repeated capture), `normalize_resource_name` substitutes the
positional placeholders `{0}` then `{1}` with the arguments in order —
sequential `str.replace` calls — and returns the substituted string as is:
no recursive normalization takes place and no date/hash suffix is
stripped from the components. -/
theorem normalize_resource_name_format_subst (fmt a b : String)
    (hf : ∀ c ∈ fmt.data, isQuoteChar c = false)
    (ha : ∀ c ∈ a.data, isQuoteChar c = false)
    (hb : ∀ c ∈ b.data, isQuoteChar c = false)
    (hbne : b ≠ "") :
    normalize_resource_name
        (.str ("[format('" ++ fmt ++ "', '" ++ a ++ "', '" ++ b ++ "')]"))
      = .str ⟨replaceAll (("\x7b1\x7d").data) b.data
          (replaceAll (("\x7b0\x7d").data) a.data fmt.data)⟩ := by
  have hdata : ("[format('" ++ fmt ++ "', '" ++ a ++ "', '" ++ b ++ "')]").data
      = (("[format('").data) ++ fmt.data ++ (("', '").data) ++ a.data
        ++ (("', '").data) ++ b.data ++ (("')]").data) := rfl
  have hbne' : ¬ (b.data = []) := by
    intro h
    exact hbne (by cases b; simp at h; simp [h])
  show Json.str (strNormalize _) = _
  unfold strNormalize
  rw [hdata, parseFormat_construct fmt.data a.data b.data hf ha hb]
  dsimp only
  rw [if_neg hbne']
  have hp0 : (Char.ofNat 123 :: ((toString (0 : Nat)).data ++ [Char.ofNat 125]))
      = ("\x7b0\x7d").data := by decide
  have hp1 : (Char.ofNat 123 :: ((toString (1 : Nat)).data ++ [Char.ofNat 125]))
      = ("\x7b1\x7d").data := by decide
  have hstep : applyParams fmt.data ([a.data] ++ [b.data])
      = replaceAll (Char.ofNat 123 :: ((toString (1 : Nat)).data ++ [Char.ofNat 125]))
          b.data
          (replaceAll (Char.ofNat 123 :: ((toString (0 : Nat)).data ++ [Char.ofNat 125]))
            a.data fmt.data) := rfl
  rw [hstep, hp0, hp1]

/-- Witness for C3 at the specification's own example. -/
theorem normalize_resource_name_format_subst_witness :
    normalize_resource_name
        (.str ("[format('" ++ "{0}/{1}" ++ "', '" ++ "Policy_20250627_v7wlxg"
          ++ "', '" ++ "RCG_Name" ++ "')]"))
      = .str ⟨replaceAll (("\x7b1\x7d").data) ("RCG_Name").data
          (replaceAll (("\x7b0\x7d").data) ("Policy_20250627_v7wlxg").data
            ("{0}/{1}").data)⟩ :=
  normalize_resource_name_format_subst "{0}/{1}" "Policy_20250627_v7wlxg" "RCG_Name"
    (by decide) (by decide) (by decide) (by decide)


/-! ## Prefix behaviour of the format parser

`re.match` is a prefix match, so a successful parse is preserved by
appending characters, and (contrapositively) a failed parse stays failed
on any prefix of the input.  These lemmas drive the analysis of repeated
normalization. -/

/-- A successful literal match is preserved under appending. -/
theorem expectChars_append (p cs t r : List Char) (h : expectChars p cs = some r) :
    expectChars p (cs ++ t) = some (r ++ t) := by
  induction p generalizing cs with
  | nil =>
      simp only [expectChars, Option.some.injEq] at h
      simp [expectChars, h]
  | cons c ps ih =>
      cases cs with
      | nil => simp [expectChars] at h
      | cons c2 cs2 =>
          by_cases hc : c2 = c
          · simp only [List.cons_append, expectChars, hc, if_true] at h ⊢
            exact ih cs2 h
          · simp [expectChars, hc] at h

/-- A successful quote scan is preserved under appending. -/
theorem scanQuoted_append (cs : List Char) :
    ∀ (t g r : List Char), scanQuoted cs = some (g, r) →
      scanQuoted (cs ++ t) = some (g, r ++ t) := by
  induction cs with
  | nil => intro t g r h; simp [scanQuoted] at h
  | cons c cs2 ih =>
      intro t g r h
      by_cases hq : isQuoteChar c = true
      · simp only [scanQuoted, hq, if_true, Option.some.injEq, Prod.mk.injEq] at h
        obtain ⟨rfl, rfl⟩ := h
        simp [scanQuoted, hq]
      · simp only [List.cons_append, scanQuoted, hq, Bool.false_eq_true, if_false] at h ⊢
        cases hs : scanQuoted cs2 with
        | none => rw [hs] at h; simp at h
        | some gr =>
            obtain ⟨g2, r2⟩ := gr
            rw [hs] at h
            dsimp only at h
            obtain ⟨rfl, rfl⟩ : c :: g2 = g ∧ r2 = r := by
              have h2 := Option.some.inj h
              exact ⟨congrArg Prod.fst h2, congrArg Prod.snd h2⟩
            rw [List.append_eq, ih t g2 r2 hs]

/-- A successful quoted-string parse is preserved under appending. -/
theorem parseQuoted_append (cs t g r : List Char) (h : parseQuoted cs = some (g, r)) :
    parseQuoted (cs ++ t) = some (g, r ++ t) := by
  cases cs with
  | nil => simp [parseQuoted] at h
  | cons c cs2 =>
      by_cases hq : isQuoteChar c = true
      · simp only [List.cons_append, parseQuoted, hq, if_true] at h ⊢
        exact scanQuoted_append cs2 t g r h
      · simp [parseQuoted, hq] at h

/-- `dropWhile` distributes over appending when it does not exhaust the
first list. -/
theorem dropWhile_append_ne_nil (p : Char → Bool) (cs t : List Char)
    (h : cs.dropWhile p ≠ []) :
    (cs ++ t).dropWhile p = cs.dropWhile p ++ t := by
  induction cs with
  | nil => simp at h
  | cons c cs2 ih =>
      by_cases hp : p c = true
      · rw [List.dropWhile_cons_of_pos hp] at h
        rw [List.cons_append, List.dropWhile_cons_of_pos hp,
          List.dropWhile_cons_of_pos hp]
        exact ih h
      · rw [List.cons_append, List.dropWhile_cons_of_neg (by simpa using hp),
          List.dropWhile_cons_of_neg (by simpa using hp), List.cons_append]

/-- A successful argument-loop run is preserved under appending. -/
theorem parseArgs_append (fuel : Nat) :
    ∀ (acc : Option (List Char)) (cs t : List Char) (r : Option (List Char)),
      parseArgs fuel acc cs = some r → parseArgs fuel acc (cs ++ t) = some r := by
  induction fuel with
  | zero => intro acc cs t r h; simp [parseArgs] at h
  | succ n ih =>
      intro acc cs t r h
      rw [parseArgs] at h ⊢
      cases hdw : cs.dropWhile isSpaceChar with
      | nil => rw [hdw] at h; simp at h
      | cons c cs2 =>
          rw [hdw] at h
          have hdw2 : (cs ++ t).dropWhile isSpaceChar = c :: (cs2 ++ t) := by
            rw [dropWhile_append_ne_nil _ cs t (by rw [hdw]; simp), hdw, List.cons_append]
          rw [hdw2]
          dsimp only at h ⊢
          by_cases hc : c = ','
          · rw [if_pos hc] at h ⊢
            cases hpq : parseQuoted (cs2.dropWhile isSpaceChar) with
            | none => rw [hpq] at h; simp at h
            | some gr =>
                obtain ⟨g, cs3⟩ := gr
                rw [hpq] at h
                by_cases hd2 : cs2.dropWhile isSpaceChar = []
                · rw [hd2] at hpq; simp [parseQuoted] at hpq
                · rw [dropWhile_append_ne_nil _ cs2 t hd2,
                    parseQuoted_append _ t g cs3 hpq]
                  dsimp only at h ⊢
                  exact ih (some g) cs3 t r h
          · rw [if_neg hc] at h ⊢
            cases hec : expectChars [')', ']'] (c :: cs2) with
            | none => rw [hec] at h; simp at h
            | some r2 =>
                rw [hec] at h
                have : expectChars [')', ']'] ((c :: cs2) ++ t) = some (r2 ++ t) :=
                  expectChars_append _ _ t _ hec
                rw [List.cons_append] at this
                rw [this]
                exact h

/-- A successful format parse is preserved under appending (the regex is a
prefix match). -/
theorem parseFormat_append (cs t : List Char) (g : List Char × List Char × Option (List Char))
    (h : parseFormat cs = some g) : parseFormat (cs ++ t) = some g := by
  unfold parseFormat at h ⊢
  cases hec : expectChars (("[format(").data) cs with
  | none => rw [hec] at h; simp at h
  | some cs1 =>
      rw [hec] at h
      rw [expectChars_append _ _ t _ hec]
      dsimp only at h ⊢
      cases hpq : parseQuoted (cs1.dropWhile isSpaceChar) with
      | none => rw [hpq] at h; simp at h
      | some g1cs2 =>
          obtain ⟨g1, cs2⟩ := g1cs2
          rw [hpq] at h
          by_cases hd : cs1.dropWhile isSpaceChar = []
          · rw [hd] at hpq; simp [parseQuoted] at hpq
          · rw [dropWhile_append_ne_nil _ cs1 t hd, parseQuoted_append _ t _ _ hpq]
            dsimp only at h ⊢
            cases hdw : cs2.dropWhile isSpaceChar with
            | nil => rw [hdw] at h; simp at h
            | cons c cs3 =>
                rw [hdw] at h
                rw [dropWhile_append_ne_nil _ cs2 t (by rw [hdw]; simp), hdw,
                  List.cons_append]
                dsimp only at h ⊢
                by_cases hc : c = ','
                · rw [if_pos hc] at h ⊢
                  cases hpq2 : parseQuoted (cs3.dropWhile isSpaceChar) with
                  | none => rw [hpq2] at h; simp at h
                  | some g2cs4 =>
                      obtain ⟨g2, cs4⟩ := g2cs4
                      rw [hpq2] at h
                      by_cases hd3 : cs3.dropWhile isSpaceChar = []
                      · rw [hd3] at hpq2; simp [parseQuoted] at hpq2
                      · rw [dropWhile_append_ne_nil _ cs3 t hd3,
                          parseQuoted_append _ t _ _ hpq2]
                        dsimp only at h ⊢
                        cases hpa : parseArgs (cs4.length + 1) none cs4 with
                        | none => rw [hpa] at h; simp at h
                        | some g3 =>
                            rw [hpa] at h
                            have hpa2 : parseArgs ((cs4 ++ t).length + 1) none (cs4 ++ t)
                                = some g3 := by
                              have h1 : parseArgs (cs4.length + 1) none (cs4 ++ t)
                                  = some g3 := parseArgs_append _ none cs4 t g3 hpa
                              have hl : (cs4 ++ t).length + 1
                                  = (cs4.length + 1) + t.length := by
                                simp
                                omega
                              rw [hl]
                              exact parseArgs_mono _ t.length none _ _ h1
                            rw [hpa2]
                            exact h
                · rw [if_neg hc] at h
                  simp at h

/-- A failed format parse stays failed on every prefix of the input. -/
theorem parseFormat_take_none (cs : List Char) (n : Nat) (h : parseFormat cs = none) :
    parseFormat (cs.take n) = none := by
  cases hp : parseFormat (cs.take n) with
  | none => rfl
  | some g =>
      exfalso
      have h2 := parseFormat_append (cs.take n) (cs.drop n) g hp
      rw [List.take_append_drop] at h2
      rw [h2] at h
      exact Option.noConfusion h


/-! ## Quote-freeness of format-branch results -/

/-- Characters surviving a literal match come from the input. -/
theorem expectChars_sub (p : List Char) :
    ∀ (cs r : List Char), expectChars p cs = some r → ∀ c ∈ r, c ∈ cs := by
  induction p with
  | nil =>
      intro cs r h c hc
      simp only [expectChars, Option.some.injEq] at h
      rwa [h]
  | cons c2 ps ih =>
      intro cs r h c hc
      cases cs with
      | nil => simp [expectChars] at h
      | cons c3 cs2 =>
          by_cases hc3 : c3 = c2
          · simp only [expectChars, hc3, if_true] at h
            exact List.mem_cons_of_mem _ (ih cs2 r h c hc)
          · simp [expectChars, hc3] at h

/-- Characters surviving `dropWhile` come from the input. -/
theorem dropWhile_sub (p : Char → Bool) (cs : List Char) :
    ∀ c ∈ cs.dropWhile p, c ∈ cs := by
  induction cs with
  | nil => simp
  | cons c2 cs2 ih =>
      intro c hc
      by_cases hp : p c2 = true
      · rw [List.dropWhile_cons_of_pos hp] at hc
        exact List.mem_cons_of_mem _ (ih c hc)
      · rw [List.dropWhile_cons_of_neg (by simpa using hp)] at hc
        exact hc

/-- A successful quoted-string parse certifies a quote character in the
input. -/
theorem parseQuoted_has_quote (cs g r : List Char) (h : parseQuoted cs = some (g, r)) :
    ∃ c ∈ cs, isQuoteChar c = true := by
  cases cs with
  | nil => simp [parseQuoted] at h
  | cons c cs2 =>
      by_cases hq : isQuoteChar c = true
      · exact ⟨c, by simp, hq⟩
      · simp [parseQuoted, hq] at h

/-- The format parser fails on quote-free input. -/
theorem parseFormat_none_of_quotefree (cs : List Char)
    (h : ∀ c ∈ cs, isQuoteChar c = false) : parseFormat cs = none := by
  unfold parseFormat
  cases hec : expectChars (("[format(").data) cs with
  | none => rfl
  | some cs1 =>
      dsimp only
      cases hpq : parseQuoted (cs1.dropWhile isSpaceChar) with
      | none => rfl
      | some g1cs2 =>
          exfalso
          obtain ⟨g1, cs2⟩ := g1cs2
          obtain ⟨c, hcmem, hcq⟩ := parseQuoted_has_quote _ _ _ hpq
          have hmem : c ∈ cs :=
            expectChars_sub _ cs cs1 hec c (dropWhile_sub isSpaceChar cs1 c hcmem)
          rw [h c hmem] at hcq
          exact Bool.noConfusion hcq

/-- The content captured by a quote scan is quote-free. -/
theorem scanQuoted_content_quotefree (cs : List Char) :
    ∀ (g r : List Char), scanQuoted cs = some (g, r) →
      ∀ c ∈ g, isQuoteChar c = false := by
  induction cs with
  | nil => intro g r h; simp [scanQuoted] at h
  | cons c cs2 ih =>
      intro g r h
      by_cases hq : isQuoteChar c = true
      · simp only [scanQuoted, hq, if_true, Option.some.injEq, Prod.mk.injEq] at h
        obtain ⟨rfl, rfl⟩ := h
        simp
      · simp only [scanQuoted, hq, Bool.false_eq_true, if_false] at h
        cases hs : scanQuoted cs2 with
        | none => rw [hs] at h; simp at h
        | some gr =>
            obtain ⟨g2, r2⟩ := gr
            rw [hs] at h
            dsimp only at h
            obtain ⟨rfl, rfl⟩ : c :: g2 = g ∧ r2 = r := by
              have h2 := Option.some.inj h
              exact ⟨congrArg Prod.fst h2, congrArg Prod.snd h2⟩
            intro x hx
            rcases List.mem_cons.mp hx with rfl | hx2
            · exact Bool.not_eq_true _ ▸ hq
            · exact ih g2 r2 hs x hx2

/-- The content captured by a quoted-string parse is quote-free. -/
theorem parseQuoted_content_quotefree (cs g r : List Char)
    (h : parseQuoted cs = some (g, r)) : ∀ c ∈ g, isQuoteChar c = false := by
  cases cs with
  | nil => simp [parseQuoted] at h
  | cons c cs2 =>
      by_cases hq : isQuoteChar c = true
      · simp only [parseQuoted, hq, if_true] at h
        exact scanQuoted_content_quotefree cs2 g r h
      · simp [parseQuoted, hq] at h

/-- Any group returned by the argument loop is quote-free (given that the
accumulator already is). -/
theorem parseArgs_group_quotefree (fuel : Nat) :
    ∀ (acc : Option (List Char)) (cs : List Char) (g : List Char),
      parseArgs fuel acc cs = some (some g) →
      (∀ g0, acc = some g0 → ∀ c ∈ g0, isQuoteChar c = false) →
      ∀ c ∈ g, isQuoteChar c = false := by
  induction fuel with
  | zero => intro acc cs g h hacc; simp [parseArgs] at h
  | succ n ih =>
      intro acc cs g h hacc
      rw [parseArgs] at h
      cases hdw : cs.dropWhile isSpaceChar with
      | nil => rw [hdw] at h; simp at h
      | cons c cs2 =>
          rw [hdw] at h
          dsimp only at h
          by_cases hc : c = ','
          · rw [if_pos hc] at h
            cases hpq : parseQuoted (cs2.dropWhile isSpaceChar) with
            | none => rw [hpq] at h; simp at h
            | some gr =>
                obtain ⟨g2, cs3⟩ := gr
                rw [hpq] at h
                dsimp only at h
                refine ih (some g2) cs3 g h ?_
                intro g0 hg0
                obtain rfl : g2 = g0 := Option.some.inj hg0
                exact parseQuoted_content_quotefree _ _ _ hpq
          · rw [if_neg hc] at h
            cases hec : expectChars [')', ']'] (c :: cs2) with
            | none => rw [hec] at h; simp at h
            | some r2 =>
                rw [hec] at h
                dsimp only at h
                exact hacc g (Option.some.inj h)

/-- All captures of a successful format parse are quote-free. -/
theorem parseFormat_groups_quotefree (cs : List Char) (g1 g2 : List Char)
    (g3 : Option (List Char)) (h : parseFormat cs = some (g1, g2, g3)) :
    (∀ c ∈ g1, isQuoteChar c = false) ∧ (∀ c ∈ g2, isQuoteChar c = false) ∧
    (∀ g, g3 = some g → ∀ c ∈ g, isQuoteChar c = false) := by
  unfold parseFormat at h
  cases hec : expectChars (("[format(").data) cs with
  | none => rw [hec] at h; simp at h
  | some cs1 =>
      rw [hec] at h
      dsimp only at h
      cases hpq : parseQuoted (cs1.dropWhile isSpaceChar) with
      | none => rw [hpq] at h; simp at h
      | some g1cs2 =>
          obtain ⟨g1', cs2⟩ := g1cs2
          rw [hpq] at h
          dsimp only at h
          cases hdw : cs2.dropWhile isSpaceChar with
          | nil => rw [hdw] at h; simp at h
          | cons c cs3 =>
              rw [hdw] at h
              dsimp only at h
              by_cases hc : c = ','
              · rw [if_pos hc] at h
                cases hpq2 : parseQuoted (cs3.dropWhile isSpaceChar) with
                | none => rw [hpq2] at h; simp at h
                | some g2cs4 =>
                    obtain ⟨g2', cs4⟩ := g2cs4
                    rw [hpq2] at h
                    dsimp only at h
                    cases hpa : parseArgs (cs4.length + 1) none cs4 with
                    | none => rw [hpa] at h; simp at h
                    | some g3' =>
                        rw [hpa] at h
                        dsimp only at h
                        obtain ⟨rfl, rfl, rfl⟩ : g1' = g1 ∧ g2' = g2 ∧ g3' = g3 := by
                          have h2 := Option.some.inj h
                          refine ⟨congrArg Prod.fst h2, ?_, ?_⟩
                          · exact congrArg Prod.fst (congrArg Prod.snd h2)
                          · exact congrArg Prod.snd (congrArg Prod.snd h2)
                        refine ⟨parseQuoted_content_quotefree _ _ _ hpq, 
                          parseQuoted_content_quotefree _ _ _ hpq2, ?_⟩
                        intro g hg
                        subst hg
                        exact parseArgs_group_quotefree _ none cs4 g hpa (by simp)
              · rw [if_neg hc] at h
                simp at h

/-- Characters of a `replaceAll` result come from the replacement or the
input (the pattern is never emitted). -/
theorem replaceAllGo_mem (pat rep : List Char) (fuel : Nat) :
    ∀ (cs : List Char) (c : Char), c ∈ replaceAllGo pat rep fuel cs →
      c ∈ rep ∨ c ∈ cs := by
  induction fuel with
  | zero =>
      intro cs c h
      cases cs with
      | nil => simp [replaceAllGo] at h
      | cons c2 cs2 => exact Or.inr (by simpa [replaceAllGo] using h)
  | succ n ih =>
      intro cs c h
      cases cs with
      | nil => simp [replaceAllGo] at h
      | cons c2 cs2 =>
          rw [replaceAllGo] at h
          cases hec : expectChars pat (c2 :: cs2) with
          | none =>
              rw [hec] at h
              dsimp only at h
              rcases List.mem_cons.mp h with rfl | h2
              · exact Or.inr (by simp)
              · rcases ih cs2 c h2 with hr | hr
                · exact Or.inl hr
                · exact Or.inr (List.mem_cons_of_mem _ hr)
          | some rest =>
              rw [hec] at h
              dsimp only at h
              rcases List.mem_append.mp h with hr | h2
              · exact Or.inl hr
              · rcases ih rest c h2 with hr | hr
                · exact Or.inl hr
                · exact Or.inr (expectChars_sub pat _ _ hec c hr)

/-- `replaceAll` preserves quote-freeness. -/
theorem replaceAll_quotefree (pat rep cs : List Char)
    (hrep : ∀ c ∈ rep, isQuoteChar c = false)
    (hcs : ∀ c ∈ cs, isQuoteChar c = false) :
    ∀ c ∈ replaceAll pat rep cs, isQuoteChar c = false := by
  intro c hc
  rcases replaceAllGo_mem pat rep (cs.length + 1) cs c hc with h | h
  · exact hrep c h
  · exact hcs c h

/-- The placeholder substitution preserves quote-freeness. -/
theorem applyParams_quotefree (fmtc : List Char) (params : List (List Char))
    (hf : ∀ c ∈ fmtc, isQuoteChar c = false)
    (hp : ∀ p ∈ params, ∀ c ∈ p, isQuoteChar c = false) :
    ∀ c ∈ applyParams fmtc params, isQuoteChar c = false := by
  unfold applyParams
  have haux : ∀ (l : List (Nat × List Char)) (init : List Char),
      (∀ c ∈ init, isQuoteChar c = false) →
      (∀ q ∈ l, ∀ c ∈ q.2, isQuoteChar c = false) →
      ∀ c ∈ l.foldl (fun res ip =>
          replaceAll (Char.ofNat 123 :: ((toString ip.1).data ++ [Char.ofNat 125]))
            ip.2 res) init, isQuoteChar c = false := by
    intro l
    induction l with
    | nil => intro init hi _ c hc; exact hi c hc
    | cons q l2 ih =>
        intro init hi hl c hc
        refine ih _ ?_ (fun q2 hq2 => hl q2 (List.mem_cons_of_mem _ hq2)) c hc
        exact replaceAll_quotefree _ _ _ (hl q (by simp)) hi
  refine haux _ fmtc hf ?_
  intro q hq
  have : q.2 ∈ params := by
    have henum : params.enum = (List.range params.length).zip params :=
      List.enum_eq_zip_range params
    rw [henum] at hq
    obtain ⟨q1, q2⟩ := q
    exact (List.of_mem_zip hq).2
  exact hp q.2 this

/-- `remove_date_suffix` returns a prefix of its input. -/
theorem remove_date_suffix_take (s : String) :
    ∃ n, (remove_date_suffix s).data = s.data.take n := by
  unfold remove_date_suffix
  by_cases hs : s = ""
  · subst hs
    exact ⟨0, by simp⟩
  · rw [if_neg hs]
    have h1 : ∃ m, rds1 s.data = s.data.take m := by
      unfold rds1
      split
      · exact ⟨s.data.length - 9, rfl⟩
      · exact ⟨s.data.length, (List.take_length _).symm⟩
    obtain ⟨m, hm⟩ := h1
    have h2 : ∃ p, rds2 (rds1 s.data) = (rds1 s.data).take p := by
      unfold rds2
      split
      · next p _ => exact ⟨p, rfl⟩
      · exact ⟨(rds1 s.data).length, (List.take_length _).symm⟩
    obtain ⟨p, hp⟩ := h2
    refine ⟨min p m, ?_⟩
    show rds2 (rds1 s.data) = _
    rw [hp, hm, List.take_take]

/-- On quote-free input, normalization is exactly date-suffix stripping
(the format pattern requires quotes). -/
theorem strNormalize_of_quotefree (y : String) (hy : ∀ c ∈ y.data, isQuoteChar c = false) :
    strNormalize y = remove_date_suffix y := by
  unfold strNormalize
  rw [parseFormat_none_of_quotefree y.data hy]

/-- Claim C4 (amended): normalization is not idempotent; instead a second
application performs exactly one further round of date-suffix stripping on
the first result.  On the format branch the substituted result is
quote-free, so it can never re-match the (necessarily quoted) format
pattern; on the other branch the stripped string is a prefix of the input
and a failed prefix-match stays failed on prefixes.  Either way the second
application reduces to `remove_date_suffix`. -/
theorem normalize_resource_name_double_strips_suffix (x : String) :
    strNormalize (strNormalize x) = remove_date_suffix (strNormalize x) := by
  cases hp : parseFormat x.data with
  | none =>
      have h1 : strNormalize x = remove_date_suffix x := by
        unfold strNormalize
        rw [hp]
      rw [h1]
      obtain ⟨n, hn⟩ := remove_date_suffix_take x
      have h2 : parseFormat (remove_date_suffix x).data = none := by
        rw [hn]
        exact parseFormat_take_none x.data n hp
      show strNormalize _ = _
      unfold strNormalize
      rw [h2]
  | some g =>
      obtain ⟨g1, g2, g3⟩ := g
      obtain ⟨hq1, hq2, hq3⟩ := parseFormat_groups_quotefree x.data g1 g2 g3 hp
      have hqf : ∀ c ∈ (strNormalize x).data, isQuoteChar c = false := by
        unfold strNormalize
        rw [hp]
        dsimp only
        refine applyParams_quotefree g1 _ hq1 ?_
        intro p hpmem
        rcases List.mem_append.mp hpmem with hpm | hpm
        · rw [List.mem_singleton] at hpm
          subst hpm
          exact hq2
        · rcases g3 with _ | gg
          · simp at hpm
          · by_cases hg : gg = []
            · simp [hg] at hpm
            · simp only [hg, if_false] at hpm
              rw [List.mem_singleton] at hpm
              rw [hpm]
              exact hq3 gg rfl
      exact strNormalize_of_quotefree _ hqf


/-! ## Permutation invariance of the logical index -/

/-- `upsert` updates exactly the looked-up key. -/
theorem lookupKey_upsert (l : List (String × Json)) (i : String) (v : Json) (k : String) :
    lookupKey (upsert l i v) k = if i = k then some v else lookupKey l k := by
  induction l with
  | nil =>
      by_cases h : i = k <;> simp [upsert, lookupKey, h]
  | cons kv rest ih =>
      obtain ⟨k', v'⟩ := kv
      by_cases h1 : k' = i
      · subst h1
        by_cases h2 : k' = k
        · subst h2
          simp [upsert, lookupKey]
        · simp [upsert, lookupKey, h2]
      · by_cases h2 : k' = k
        · subst h2
          have : ¬ (i = k') := fun he => h1 he.symm
          simp [upsert, h1, lookupKey, this]
        · simp [upsert, h1, lookupKey, h2, ih]

/-- The last element of a cons, via `Option.or`. -/
theorem getLast?_cons_or {α : Type} (a : α) (l : List α) :
    (a :: l).getLast? = l.getLast?.or (some a) := by
  cases l with
  | nil => rfl
  | cons b l2 =>
      rw [List.getLast?_cons_cons]
      exact (Option.or_of_isSome (List.getLast?_isSome.mpr (by simp))).symm

/-- Lookup in the logical index: the last matching resource wins, falling
back to the accumulator. -/
theorem extractAux_lookup (rs : List Json) :
    ∀ (acc : List (String × Json)) (k : String),
      lookupKey (extractAux acc rs) k
        = ((rs.filter (fun r =>
            decide (extract_logical_resource_identifier r = some k))).getLast?).or
            (lookupKey acc k) := by
  induction rs with
  | nil => intro acc k; simp [extractAux]
  | cons r rest ih =>
      intro acc k
      cases hid : extract_logical_resource_identifier r with
      | none =>
          rw [List.filter_cons_of_neg (by simp [hid])]
          simp only [extractAux, hid]
          exact ih acc k
      | some i =>
          by_cases hik : i = k
          · subst hik
            rw [List.filter_cons_of_pos (by simp [hid])]
            simp only [extractAux, hid]
            rw [ih (upsert acc i r) i, getLast?_cons_or, Option.or_assoc]
            have hor : (some r).or (lookupKey acc i) = some r := rfl
            rw [hor, lookupKey_upsert, if_pos rfl]
          · rw [List.filter_cons_of_neg (by simp [hid, hik])]
            simp only [extractAux, hid]
            rw [ih (upsert acc i r) k, lookupKey_upsert, if_neg hik]

/-- Lookup in the logical index of a resource list. -/
theorem extract_lookup (rs : List Json) (k : String) :
    lookupKey (extract_logical_resources rs) k
      = (rs.filter (fun r =>
          decide (extract_logical_resource_identifier r = some k))).getLast? := by
  unfold extract_logical_resources
  rw [extractAux_lookup rs [] k]
  simp [lookupKey]

/-- With duplicate-free identifiers, at most one resource matches a key. -/
theorem filter_id_length_le (k : String) (rs : List Json)
    (hnd : (rs.filterMap extract_logical_resource_identifier).Nodup) :
    (rs.filter (fun r =>
      decide (extract_logical_resource_identifier r = some k))).length ≤ 1 := by
  induction rs with
  | nil => simp
  | cons r rest ih =>
      cases hid : extract_logical_resource_identifier r with
      | none =>
          rw [List.filterMap_cons_none hid] at hnd
          rw [List.filter_cons_of_neg (by simp [hid])]
          exact ih hnd
      | some i =>
          rw [List.filterMap_cons_some hid] at hnd
          rw [List.nodup_cons] at hnd
          by_cases hik : i = k
          · subst hik
            rw [List.filter_cons_of_pos (by simp [hid])]
            have hrest : rest.filter (fun r =>
                decide (extract_logical_resource_identifier r = some i)) = [] := by
              rw [List.filter_eq_nil_iff]
              intro a ha hpa
              rw [decide_eq_true_iff] at hpa
              exact hnd.1 (List.mem_filterMap.mpr ⟨a, ha, hpa⟩)
            rw [hrest]
            simp
          · rw [List.filter_cons_of_neg (by simp [hid, hik])]
            exact ih hnd.2

/-- Permutation invariance: with duplicate-free identifiers, permuting the
resource list does not change the logical index (as a key-value map). -/
theorem extract_lookup_perm (rs rs' : List Json) (hperm : rs.Perm rs')
    (hnd : (rs.filterMap extract_logical_resource_identifier).Nodup) (k : String) :
    lookupKey (extract_logical_resources rs) k
      = lookupKey (extract_logical_resources rs') k := by
  rw [extract_lookup, extract_lookup]
  have hpf := hperm.filter (fun r =>
    decide (extract_logical_resource_identifier r = some k))
  have hlen := filter_id_length_le k rs hnd
  have heq : rs.filter (fun r =>
      decide (extract_logical_resource_identifier r = some k))
      = rs'.filter (fun r =>
        decide (extract_logical_resource_identifier r = some k)) := by
    rcases hfl : rs.filter (fun r =>
        decide (extract_logical_resource_identifier r = some k)) with _ | ⟨a, tail⟩
    · rw [hfl] at hpf
      exact hpf.nil_eq
    · rw [hfl] at hpf hlen
      have htail : tail = [] := by
        cases tail with
        | nil => rfl
        | cons b t2 => simp at hlen
      subst htail
      exact (List.perm_singleton.mp hpf.symm).symm
  rw [heq]


/-- `upsert` never yields an empty dictionary. -/
theorem upsert_ne_nil (l : List (String × Json)) (k : String) (v : Json) :
    upsert l k v ≠ [] := by
  cases l with
  | nil => simp [upsert]
  | cons kv rest =>
      obtain ⟨k', v'⟩ := kv
      by_cases h : k' = k <;> simp [upsert, h]

/-- A dictionary holding an upserted binding is truthy. -/
theorem jsonTruthy_obj_upsert (kvs : List (String × Json)) (k : String) (v : Json) :
    jsonTruthy (.obj (upsert kvs k v)) = true := by
  rcases hu : upsert kvs k v with _ | ⟨e, t⟩
  · exact absurd hu (upsert_ne_nil kvs k v)
  · simp [jsonTruthy]

/-- The list branch of the name-normalization pass is a map. -/
theorem nrnList_eq_map (xs : List Json) :
    nrnList xs = xs.map normalize_resource_names_in_json := by
  induction xs with
  | nil => rfl
  | cons x rest ih => simp [nrnList, ih]

/-- Cons-step lookup (definitional). -/
theorem lookupKey_cons {α : Type} (a : String) (b : α) (l : List (String × α)) (k : String) :
    lookupKey ((a, b) :: l) k = if a = k then some b else lookupKey l k := rfl

/-- Cons step of the name-normalization pass (definitional). -/
theorem nrnKVs_cons_eq (k : String) (v : Json) (rest : List (String × Json)) :
    nrnKVs ((k, v) :: rest)
      = (if k = "name" then (k, normalize_resource_name v)
         else (k, normalize_resource_names_in_json v)) :: nrnKVs rest := rfl

/-- Lookup of a non-`name` key through the name-normalization pass. -/
theorem nrnKVs_lookup (l : List (String × Json)) (k : String) (hk : k ≠ "name") :
    lookupKey (nrnKVs l) k = (lookupKey l k).map normalize_resource_names_in_json := by
  induction l with
  | nil => simp [nrnKVs, lookupKey]
  | cons kv rest ih =>
      obtain ⟨k', v⟩ := kv
      rw [nrnKVs_cons_eq]
      by_cases h2 : k' = "name"
      · subst h2
        rw [if_pos rfl, lookupKey_cons, lookupKey_cons]
        have h1 : ¬ (("name" : String) = k) := fun he => hk he.symm
        rw [if_neg h1, if_neg h1, ih]
      · rw [if_neg h2, lookupKey_cons, lookupKey_cons]
        by_cases h1 : k' = k
        · rw [if_pos h1, if_pos h1]
          rfl
        · rw [if_neg h1, if_neg h1, ih]

/-- Key filtering commutes with the name-normalization pass. -/
theorem nrnKVs_filter_resources (l : List (String × Json)) :
    (nrnKVs l).filter (fun kv => kv.1 ≠ "resources")
      = nrnKVs (l.filter (fun kv => kv.1 ≠ "resources")) := by
  induction l with
  | nil => simp [nrnKVs]
  | cons kv rest ih =>
      obtain ⟨k', v⟩ := kv
      rw [nrnKVs_cons_eq]
      by_cases h1 : k' = "resources"
      · subst h1
        have h2 : ¬ (("resources" : String) = "name") := by decide
        rw [if_neg h2]
        rw [List.filter_cons_of_neg (by simp), List.filter_cons_of_neg (by simp)]
        exact ih
      · by_cases h2 : k' = "name"
        · subst h2
          rw [if_pos rfl]
          rw [List.filter_cons_of_pos (by simp [h1]), List.filter_cons_of_pos (by simp [h1])]
          rw [nrnKVs_cons_eq, if_pos rfl, ih]
        · rw [if_neg h2]
          rw [List.filter_cons_of_pos (by simp [h1]), List.filter_cons_of_pos (by simp [h1])]
          rw [nrnKVs_cons_eq, if_neg h2, ih]

/-- Removing the upserted key recovers the original filtered dictionary. -/
theorem upsert_filter (kvs : List (String × Json)) (k0 : String) (v : Json) :
    (upsert kvs k0 v).filter (fun kv => kv.1 ≠ k0)
      = kvs.filter (fun kv => kv.1 ≠ k0) := by
  induction kvs with
  | nil => simp [upsert]
  | cons kv rest ih =>
      obtain ⟨k', v'⟩ := kv
      by_cases h1 : k' = k0
      · subst h1
        simp [upsert]
      · have ih2 : (upsert rest k0 v).filter (fun kv => !decide (kv.1 = k0))
            = rest.filter (fun kv => !decide (kv.1 = k0)) := by
          simpa only [ne_eq, decide_not] using ih
        simp [upsert, h1, ih2]

/-- An empty diff on identical values. -/
theorem deepDiffHas_self (a : Json) : deepDiffHas a a = false := by
  simp [deepDiffHas]

/-- An empty diff on an identically-matched pair. -/
theorem pairHasDiff_self (a : Json) : pairHasDiff a a = false := by
  simp [pairHasDiff, deepDiffHas]

/-- When the two logical indices agree as maps, all three categories of the
resource comparison are empty. -/
theorem crc_empty_of_lookup_eq (xs ys : List Json)
    (h : ∀ k, lookupKey (extract_logical_resources xs) k
      = lookupKey (extract_logical_resources ys) k) :
    compare_resource_collections xs ys = ⟨[], [], []⟩ := by
  have ndx := extract_logical_resources_nodup xs
  have ndy := extract_logical_resources_nodup ys
  unfold compare_resource_collections
  simp only [ResourceDiffResult.mk.injEq]
  refine ⟨?_, ?_, ?_⟩
  · rw [List.filter_eq_nil_iff]
    intro kv hm
    have hl : lookupKey (extract_logical_resources xs) kv.1 = some kv.2 :=
      lookupKey_eq_some_of_mem ndx hm
    have hc : containsKey (extract_logical_resources ys) kv.1 = true := by
      unfold containsKey
      rw [← h kv.1, hl]
      rfl
    simp [hc]
  · rw [List.filter_eq_nil_iff]
    intro kv hm
    have hl : lookupKey (extract_logical_resources ys) kv.1 = some kv.2 :=
      lookupKey_eq_some_of_mem ndy hm
    have hc : containsKey (extract_logical_resources xs) kv.1 = true := by
      unfold containsKey
      rw [h kv.1, hl]
      rfl
    simp [hc]
  · rw [List.filterMap_eq_nil_iff]
    intro kv hm
    have hl : lookupKey (extract_logical_resources xs) kv.1 = some kv.2 :=
      lookupKey_eq_some_of_mem ndx hm
    rw [← h kv.1, hl]
    dsimp only
    rw [pairHasDiff_self]
    rfl

/-- Claim C2 (amended): for two documents identical except for a
permutation of the `resources` array, and in which no two resources share
a logical identifier, the comparison reports no differences — all three
resource categories are empty and `has_differences` is false.  (With
duplicate identifiers last-write-wins indexing can pair different
resources after a permutation; see the counterexample.) -/
theorem compare_arm_templates_perm_nodup_ids
    (kvs : List (String × Json)) (rs1 rs2 : List Json)
    (hperm : rs1.Perm rs2)
    (hnd : ((rs1.map normalize_resource_names_in_json).filterMap
      extract_logical_resource_identifier).Nodup) :
    (compare_arm_templates
        (some (.obj (upsert kvs "resources" (.arr rs1))))
        (some (.obj (upsert kvs "resources" (.arr rs2))))).has_differences = false ∧
    compare_resource_collections
        (rs1.map normalize_resource_names_in_json)
        (rs2.map normalize_resource_names_in_json)
      = ⟨[], [], []⟩ := by
  have hperm' := hperm.map normalize_resource_names_in_json
  have hlk := fun k => extract_lookup_perm _ _ hperm' hnd k
  have hrd : compare_resource_collections
      (rs1.map normalize_resource_names_in_json)
      (rs2.map normalize_resource_names_in_json) = ⟨[], [], []⟩ :=
    crc_empty_of_lookup_eq _ _ hlk
  refine ⟨?_, hrd⟩
  have hpop : ∀ rs : List Json,
      popResources (normalize_resource_names_in_json
        (.obj (upsert kvs "resources" (.arr rs))))
        = (rs.map normalize_resource_names_in_json,
           .obj (nrnKVs (kvs.filter (fun kv => kv.1 ≠ "resources")))) := by
    intro rs
    show popResources (.obj (nrnKVs (upsert kvs "resources" (.arr rs)))) = _
    unfold popResources
    dsimp only
    have hl : lookupKey (nrnKVs (upsert kvs "resources" (.arr rs))) "resources"
        = some (.arr (rs.map normalize_resource_names_in_json)) := by
      rw [nrnKVs_lookup _ _ (by decide), lookupKey_upsert, if_pos rfl]
      show some (normalize_resource_names_in_json (.arr rs)) = _
      rw [show normalize_resource_names_in_json (.arr rs) = .arr (nrnList rs) from rfl,
        nrnList_eq_map]
    rw [hl]
    dsimp only
    rw [nrnKVs_filter_resources, upsert_filter]
  unfold compare_arm_templates
  dsimp only
  rw [jsonTruthy_obj_upsert, jsonTruthy_obj_upsert]
  simp only [Bool.and_self, eq_self_iff_true, if_true]
  rw [hpop rs1, hpop rs2]
  dsimp only
  rw [hrd, deepDiffHas_self]
  rfl

/-- Witness for C2 at a concrete input: two distinct-id resources swapped. -/
theorem compare_arm_templates_perm_nodup_ids_witness :
    (compare_arm_templates
        (some (.obj (upsert [] "resources" (.arr
          [.obj [("type", .str "T"), ("name", .str "A")],
           .obj [("type", .str "T"), ("name", .str "B")]]))))
        (some (.obj (upsert [] "resources" (.arr
          [.obj [("type", .str "T"), ("name", .str "B")],
           .obj [("type", .str "T"), ("name", .str "A")]]))))).has_differences = false ∧
    compare_resource_collections
        (([.obj [("type", .str "T"), ("name", .str "A")],
           .obj [("type", .str "T"), ("name", .str "B")]] : List Json).map
          normalize_resource_names_in_json)
        (([.obj [("type", .str "T"), ("name", .str "B")],
           .obj [("type", .str "T"), ("name", .str "A")]] : List Json).map
          normalize_resource_names_in_json)
      = ⟨[], [], []⟩ :=
  compare_arm_templates_perm_nodup_ids []
    [.obj [("type", .str "T"), ("name", .str "A")],
     .obj [("type", .str "T"), ("name", .str "B")]]
    [.obj [("type", .str "T"), ("name", .str "B")],
     .obj [("type", .str "T"), ("name", .str "A")]]
    (by decide) (by decide)

/-! ## Null/empty-array equivalence along dictionary paths (C6) -/

/-- `handle_empty_and_missing` maps both `null` and `[]` to `[]`. -/
theorem hem_null_eq_empty :
    handle_empty_and_missing .null = handle_empty_and_missing (.arr []) := rfl

/-- Object branch of `handle_empty_and_missing` (definitional). -/
theorem hem_obj_eq (kvs : List (String × Json)) :
    handle_empty_and_missing (.obj kvs) = .obj (sortBy keyLe (hemKVs kvs)) := rfl

/-- Cons step of the empty/missing pass on dict items (definitional). -/
theorem hemKVs_cons_eq (k : String) (v : Json) (rest : List (String × Json)) :
    hemKVs ((k, v) :: rest) = (k, handle_empty_and_missing v) :: hemKVs rest := rfl

/-- Object branch of `remove_ignored_keys` (definitional). -/
theorem rik_obj_eq (ign : List String) (kvs : List (String × Json)) :
    remove_ignored_keys ign (.obj kvs) = .obj (rikKVs ign kvs) := rfl

/-- Cons step of `remove_ignored_keys` on dict items (definitional). -/
theorem rikKVs_cons_eq (ign : List String) (k : String) (v : Json)
    (rest : List (String × Json)) :
    rikKVs ign ((k, v) :: rest)
      = if ign.contains k then rikKVs ign rest
        else (k, remove_ignored_keys ign v) :: rikKVs ign rest := rfl

/-- Object branch of `normalize_resource_names_in_json` (definitional). -/
theorem nrn_obj_eq (kvs : List (String × Json)) :
    normalize_resource_names_in_json (.obj kvs) = .obj (nrnKVs kvs) := rfl

/-- Single-key object step of `setField` (definitional). -/
theorem setField_obj_single (kvs : List (String × Json)) (k : String) (v : Json) :
    setField (.obj kvs) [k] v
      = .obj (kvs.map (fun kv => if kv.1 = k then (kv.1, v) else kv)) := rfl

/-- Deeper object step of `setField` (definitional). -/
theorem setField_obj_cons (kvs : List (String × Json)) (k r : String)
    (rs : List String) (v : Json) :
    setField (.obj kvs) (k :: r :: rs) v
      = .obj (kvs.map (fun kv =>
          if kv.1 = k then (kv.1, setField kv.2 (r :: rs) v) else kv)) := rfl

/-- Updating one key commutes with the empty/missing pass when the two
updated values agree after the pass. -/
theorem hemKVs_map_upd (k : String) (t1 t2 : Json → Json)
    (h : ∀ v, handle_empty_and_missing (t1 v) = handle_empty_and_missing (t2 v))
    (kvs : List (String × Json)) :
    hemKVs (kvs.map (fun kv => if kv.1 = k then (kv.1, t1 kv.2) else kv))
      = hemKVs (kvs.map (fun kv => if kv.1 = k then (kv.1, t2 kv.2) else kv)) := by
  induction kvs with
  | nil => rfl
  | cons kv rest ih =>
      obtain ⟨k0, v⟩ := kv
      rw [List.map_cons, List.map_cons]
      dsimp only
      by_cases hk : k0 = k
      · rw [if_pos hk, if_pos hk, hemKVs_cons_eq, hemKVs_cons_eq, h v, ih]
      · rw [if_neg hk, if_neg hk, hemKVs_cons_eq, hemKVs_cons_eq, ih]

/-- As `hemKVs_map_upd`, through `remove_ignored_keys` first. -/
theorem hemRikKVs_map_upd (ign : List String) (k : String) (t1 t2 : Json → Json)
    (h : ∀ v, handle_empty_and_missing (remove_ignored_keys ign (t1 v))
      = handle_empty_and_missing (remove_ignored_keys ign (t2 v)))
    (kvs : List (String × Json)) :
    hemKVs (rikKVs ign (kvs.map (fun kv => if kv.1 = k then (kv.1, t1 kv.2) else kv)))
      = hemKVs (rikKVs ign (kvs.map (fun kv => if kv.1 = k then (kv.1, t2 kv.2) else kv))) := by
  induction kvs with
  | nil => rfl
  | cons kv rest ih =>
      obtain ⟨k0, v⟩ := kv
      rw [List.map_cons, List.map_cons]
      dsimp only
      by_cases hk : k0 = k
      · rw [if_pos hk, if_pos hk, rikKVs_cons_eq, rikKVs_cons_eq]
        by_cases hig : ign.contains k0 = true
        · rw [if_pos hig, if_pos hig]
          exact ih
        · rw [if_neg hig, if_neg hig, hemKVs_cons_eq, hemKVs_cons_eq, h v, ih]
      · rw [if_neg hk, if_neg hk, rikKVs_cons_eq, rikKVs_cons_eq]
        by_cases hig : ign.contains k0 = true
        · rw [if_pos hig, if_pos hig]
          exact ih
        · rw [if_neg hig, if_neg hig, hemKVs_cons_eq, hemKVs_cons_eq, ih]

/-- As `hemKVs_map_upd`, through the full name-normalization, ignored-key
and empty/missing pipeline; under the `name` key the first pass applies
`normalize_resource_name` instead of recursing. -/
theorem hemRikNrnKVs_map_upd (ign : List String) (k : String) (t1 t2 : Json → Json)
    (h3 : ∀ v, handle_empty_and_missing (remove_ignored_keys ign
        (normalize_resource_names_in_json (t1 v)))
      = handle_empty_and_missing (remove_ignored_keys ign
        (normalize_resource_names_in_json (t2 v))))
    (hn : ∀ v, handle_empty_and_missing (remove_ignored_keys ign
        (normalize_resource_name (t1 v)))
      = handle_empty_and_missing (remove_ignored_keys ign
        (normalize_resource_name (t2 v))))
    (kvs : List (String × Json)) :
    hemKVs (rikKVs ign (nrnKVs (kvs.map (fun kv =>
        if kv.1 = k then (kv.1, t1 kv.2) else kv))))
      = hemKVs (rikKVs ign (nrnKVs (kvs.map (fun kv =>
          if kv.1 = k then (kv.1, t2 kv.2) else kv)))) := by
  induction kvs with
  | nil => rfl
  | cons kv rest ih =>
      obtain ⟨k0, v⟩ := kv
      rw [List.map_cons, List.map_cons]
      dsimp only
      by_cases hk : k0 = k
      · rw [if_pos hk, if_pos hk, nrnKVs_cons_eq, nrnKVs_cons_eq]
        by_cases hnm : k0 = "name"
        · rw [if_pos hnm, if_pos hnm, rikKVs_cons_eq, rikKVs_cons_eq]
          by_cases hig : ign.contains k0 = true
          · rw [if_pos hig, if_pos hig]
            exact ih
          · rw [if_neg hig, if_neg hig, hemKVs_cons_eq, hemKVs_cons_eq, hn v, ih]
        · rw [if_neg hnm, if_neg hnm, rikKVs_cons_eq, rikKVs_cons_eq]
          by_cases hig : ign.contains k0 = true
          · rw [if_pos hig, if_pos hig]
            exact ih
          · rw [if_neg hig, if_neg hig, hemKVs_cons_eq, hemKVs_cons_eq, h3 v, ih]
      · rw [if_neg hk, if_neg hk, nrnKVs_cons_eq, nrnKVs_cons_eq]
        by_cases hnm : k0 = "name"
        · rw [if_pos hnm, rikKVs_cons_eq, rikKVs_cons_eq]
          by_cases hig : ign.contains k0 = true
          · rw [if_pos hig, if_pos hig]
            exact ih
          · rw [if_neg hig, if_neg hig, hemKVs_cons_eq, hemKVs_cons_eq, ih]
        · rw [if_neg hnm, rikKVs_cons_eq, rikKVs_cons_eq]
          by_cases hig : ign.contains k0 = true
          · rw [if_pos hig, if_pos hig]
            exact ih
          · rw [if_neg hig, if_neg hig, hemKVs_cons_eq, hemKVs_cons_eq, ih]

/-- The empty/missing pass identifies a `null` and an `[]` planted at any
nonempty path of dictionary keys. -/
theorem hem_setField (k : String) (rest : List String) (X : Json) :
    handle_empty_and_missing (setField X (k :: rest) .null)
      = handle_empty_and_missing (setField X (k :: rest) (.arr [])) := by
  induction rest generalizing k X with
  | nil =>
      cases X with
      | obj kvs =>
          rw [setField_obj_single, setField_obj_single, hem_obj_eq, hem_obj_eq,
            hemKVs_map_upd k (fun _ => Json.null) (fun _ => Json.arr [])
              (fun _ => hem_null_eq_empty) kvs]
      | null => rfl
      | bool b => rfl
      | num n => rfl
      | str s => rfl
      | arr xs => rfl
  | cons r rs ih =>
      cases X with
      | obj kvs =>
          rw [setField_obj_cons, setField_obj_cons, hem_obj_eq, hem_obj_eq,
            hemKVs_map_upd k (fun w => setField w (r :: rs) Json.null)
              (fun w => setField w (r :: rs) (Json.arr []))
              (fun w => ih r w) kvs]
      | null => rfl
      | bool b => rfl
      | num n => rfl
      | str s => rfl
      | arr xs => rfl

/-- As `hem_setField`, after the ignored-key removal pass. -/
theorem hem_rik_setField (ign : List String) (k : String) (rest : List String)
    (X : Json) :
    handle_empty_and_missing (remove_ignored_keys ign (setField X (k :: rest) .null))
      = handle_empty_and_missing (remove_ignored_keys ign
          (setField X (k :: rest) (.arr []))) := by
  induction rest generalizing k X with
  | nil =>
      cases X with
      | obj kvs =>
          rw [setField_obj_single, setField_obj_single, rik_obj_eq, rik_obj_eq,
            hem_obj_eq, hem_obj_eq,
            hemRikKVs_map_upd ign k (fun _ => Json.null) (fun _ => Json.arr [])
              (fun _ => rfl) kvs]
      | null => rfl
      | bool b => rfl
      | num n => rfl
      | str s => rfl
      | arr xs => rfl
  | cons r rs ih =>
      cases X with
      | obj kvs =>
          rw [setField_obj_cons, setField_obj_cons, rik_obj_eq, rik_obj_eq,
            hem_obj_eq, hem_obj_eq,
            hemRikKVs_map_upd ign k (fun w => setField w (r :: rs) Json.null)
              (fun w => setField w (r :: rs) (Json.arr []))
              (fun w => ih r w) kvs]
      | null => rfl
      | bool b => rfl
      | num n => rfl
      | str s => rfl
      | arr xs => rfl

/-- `normalize_resource_name` leaves any `setField` result on an object
unchanged (it only rewrites strings). -/
theorem nrm_setField_obj (kvs : List (String × Json)) (p : List String) (v : Json) :
    normalize_resource_name (setField (.obj kvs) p v) = setField (.obj kvs) p v := by
  cases p with
  | nil => rfl
  | cons a as =>
      cases as with
      | nil => rfl
      | cons b bs => rfl

/-- As `hem_setField`, after the full per-pair preprocessing pipeline:
name normalization, ignored-key removal, then the empty/missing pass. -/
theorem hem_rik_nrn_setField (ign : List String) (k : String) (rest : List String)
    (X : Json) :
    handle_empty_and_missing (remove_ignored_keys ign
        (normalize_resource_names_in_json (setField X (k :: rest) .null)))
      = handle_empty_and_missing (remove_ignored_keys ign
          (normalize_resource_names_in_json (setField X (k :: rest) (.arr [])))) := by
  induction rest generalizing k X with
  | nil =>
      cases X with
      | obj kvs =>
          rw [setField_obj_single, setField_obj_single, nrn_obj_eq, nrn_obj_eq,
            rik_obj_eq, rik_obj_eq, hem_obj_eq, hem_obj_eq,
            hemRikNrnKVs_map_upd ign k (fun _ => Json.null) (fun _ => Json.arr [])
              (fun _ => rfl) (fun _ => rfl) kvs]
      | null => rfl
      | bool b => rfl
      | num n => rfl
      | str s => rfl
      | arr xs => rfl
  | cons r rs ih =>
      cases X with
      | obj kvs =>
          have hn : ∀ w : Json,
              handle_empty_and_missing (remove_ignored_keys ign
                (normalize_resource_name (setField w (r :: rs) Json.null)))
              = handle_empty_and_missing (remove_ignored_keys ign
                (normalize_resource_name (setField w (r :: rs) (Json.arr [])))) := by
            intro w
            cases w with
            | obj kvs2 =>
                rw [nrm_setField_obj, nrm_setField_obj]
                exact hem_rik_setField ign r rs (.obj kvs2)
            | null => rfl
            | bool b => rfl
            | num n => rfl
            | str s => rfl
            | arr xs => rfl
          rw [setField_obj_cons, setField_obj_cons, nrn_obj_eq, nrn_obj_eq,
            rik_obj_eq, rik_obj_eq, hem_obj_eq, hem_obj_eq,
            hemRikNrnKVs_map_upd ign k (fun w => setField w (r :: rs) Json.null)
              (fun w => setField w (r :: rs) (Json.arr []))
              (fun w => ih r w) hn kvs]
      | null => rfl
      | bool b => rfl
      | num n => rfl
      | str s => rfl
      | arr xs => rfl

/-- The preprocessing of `compare_resource_collections` identifies a `null`
and an `[]` planted at any nonempty path of dictionary keys. -/
theorem prep_setField (k : String) (rest : List String) (X : Json) :
    prepResource (setField X (k :: rest) .null)
      = prepResource (setField X (k :: rest) (.arr [])) :=
  hem_rik_nrn_setField (["dependsOn"]) k rest X

/-- Looking up a key other than the updated one is unchanged by a value
update. -/
theorem lookupKey_map_upd (k : String) (t : Json → Json) (q : String) (hq : q ≠ k)
    (kvs : List (String × Json)) :
    lookupKey (kvs.map (fun kv => if kv.1 = k then (kv.1, t kv.2) else kv)) q
      = lookupKey kvs q := by
  induction kvs with
  | nil => rfl
  | cons kv rest ih =>
      obtain ⟨k0, w⟩ := kv
      rw [List.map_cons]
      dsimp only
      by_cases hk : k0 = k
      · have hne : ¬ (k0 = q) := fun he => hq (he ▸ hk)
        rw [if_pos hk, lookupKey_cons, lookupKey_cons, if_neg hne, if_neg hne, ih]
      · rw [if_neg hk, lookupKey_cons, lookupKey_cons]
        by_cases h0 : k0 = q
        · rw [if_pos h0, if_pos h0]
        · rw [if_neg h0, if_neg h0, ih]

/-- A `setField` update along a path avoiding `type` and `name` does not
change the extracted logical identifier. -/
theorem extract_setField (r : Json) (k : String) (rest : List String) (v : Json)
    (hk1 : k ≠ "type") (hk2 : k ≠ "name") :
    extract_logical_resource_identifier (setField r (k :: rest) v)
      = extract_logical_resource_identifier r := by
  have ht : ("type" : String) ≠ k := fun he => hk1 he.symm
  have hn : ("name" : String) ≠ k := fun he => hk2 he.symm
  cases r with
  | obj kvs =>
      cases rest with
      | nil =>
          rw [setField_obj_single]
          unfold extract_logical_resource_identifier
          dsimp only
          rw [lookupKey_map_upd k (fun _ => v) ("type") ht kvs,
            lookupKey_map_upd k (fun _ => v) ("name") hn kvs]
      | cons r1 r2 =>
          rw [setField_obj_cons]
          unfold extract_logical_resource_identifier
          dsimp only
          rw [lookupKey_map_upd k (fun w => setField w (r1 :: r2) v) ("type") ht kvs,
            lookupKey_map_upd k (fun w => setField w (r1 :: r2) v) ("name") hn kvs]
  | null => rfl
  | bool b => rfl
  | num n => rfl
  | str s => rfl
  | arr xs => rfl

/-- Cons step of the extraction loop (definitional). -/
theorem extractAux_cons (acc : List (String × Json)) (r : Json) (rest : List Json) :
    extractAux acc (r :: rest)
      = match extract_logical_resource_identifier r with
        | some i => extractAux (upsert acc i r) rest
        | none => extractAux acc rest := rfl

/-- Claim C6 (amended): `handle_empty_and_missing` does not recurse into
list elements, so a `null` and an `[]` compare as identical inside a
matched resource pair exactly when the differing field is reachable from
the resource root through dictionary keys alone.  For any resource, any
nonempty path of dictionary keys whose first key avoids the identifying
`type`/`name` keys, planting `null` versus `[]` at that path yields an
empty pair diff, and comparing the two singleton collections reports
nothing — in particular the pair does not appear in `values_changed`.
(For a field nested inside an array — as `destinationFqdns` inside a rule
object is — the `null` survives preprocessing and the pair IS reported in
`values_changed`; see the counterexample.) -/
theorem null_empty_equiv_dict_path (r : Json) (k : String) (rest : List String)
    (hk1 : k ≠ "type") (hk2 : k ≠ "name") :
    pairHasDiff (setField r (k :: rest) .null) (setField r (k :: rest) (.arr [])) = false ∧
    compare_resource_collections [setField r (k :: rest) .null]
        [setField r (k :: rest) (.arr [])]
      = ⟨[], [], []⟩ := by
  have hprep := prep_setField k rest r
  have hpd : pairHasDiff (setField r (k :: rest) .null)
      (setField r (k :: rest) (.arr [])) = false := by
    unfold pairHasDiff
    rw [hprep]
    exact deepDiffHas_self _
  refine ⟨hpd, ?_⟩
  cases hE : extract_logical_resource_identifier r with
  | none =>
      have ha : extract_logical_resources [setField r (k :: rest) .null] = [] := by
        show extractAux [] [setField r (k :: rest) .null] = []
        rw [extractAux_cons, extract_setField r k rest .null hk1 hk2, hE]
        rfl
      have hb : extract_logical_resources [setField r (k :: rest) (.arr [])] = [] := by
        show extractAux [] [setField r (k :: rest) (.arr [])] = []
        rw [extractAux_cons, extract_setField r k rest (.arr []) hk1 hk2, hE]
        rfl
      unfold compare_resource_collections
      dsimp only
      rw [ha, hb]
      rfl
  | some i =>
      have ha : extract_logical_resources [setField r (k :: rest) .null]
          = [(i, setField r (k :: rest) .null)] := by
        show extractAux [] [setField r (k :: rest) .null] = _
        rw [extractAux_cons, extract_setField r k rest .null hk1 hk2, hE]
        rfl
      have hb : extract_logical_resources [setField r (k :: rest) (.arr [])]
          = [(i, setField r (k :: rest) (.arr []))] := by
        show extractAux [] [setField r (k :: rest) (.arr [])] = _
        rw [extractAux_cons, extract_setField r k rest (.arr []) hk1 hk2, hE]
        rfl
      have hca : containsKey [(i, setField r (k :: rest) Json.null)] i = true := by
        unfold containsKey
        rw [lookupKey_cons, if_pos rfl]
        rfl
      have hcb : containsKey [(i, setField r (k :: rest) (Json.arr []))] i = true := by
        unfold containsKey
        rw [lookupKey_cons, if_pos rfl]
        rfl
      have hlb : lookupKey [(i, setField r (k :: rest) (Json.arr []))] i
          = some (setField r (k :: rest) (Json.arr [])) := by
        rw [lookupKey_cons, if_pos rfl]
      unfold compare_resource_collections
      dsimp only
      rw [ha, hb]
      simp only [ResourceDiffResult.mk.injEq]
      refine ⟨?_, ?_, ?_⟩
      · rw [List.filter_eq_nil_iff]
        intro kv hm
        rw [List.mem_singleton] at hm
        subst hm
        simp [hcb]
      · rw [List.filter_eq_nil_iff]
        intro kv hm
        rw [List.mem_singleton] at hm
        subst hm
        simp [hca]
      · rw [List.filterMap_eq_nil_iff]
        intro kv hm
        rw [List.mem_singleton] at hm
        subst hm
        dsimp only
        rw [hlb]
        dsimp only
        rw [hpd]
        rfl

/-- Witness for C6 at a concrete input: `destinationFqdns` directly under a
dictionary key `properties`, `null` in one copy and `[]` in the other. -/
theorem null_empty_equiv_dict_path_witness :
    ("properties" : String) ≠ "type" ∧ ("properties" : String) ≠ "name" ∧
    (pairHasDiff
        (setField (.obj [("type", .str "T"), ("name", .str "A"),
            ("properties", .obj [("destinationFqdns", .str "x")])])
          ("properties" :: ["destinationFqdns"]) .null)
        (setField (.obj [("type", .str "T"), ("name", .str "A"),
            ("properties", .obj [("destinationFqdns", .str "x")])])
          ("properties" :: ["destinationFqdns"]) (.arr [])) = false ∧
      compare_resource_collections
        [setField (.obj [("type", .str "T"), ("name", .str "A"),
            ("properties", .obj [("destinationFqdns", .str "x")])])
          ("properties" :: ["destinationFqdns"]) .null]
        [setField (.obj [("type", .str "T"), ("name", .str "A"),
            ("properties", .obj [("destinationFqdns", .str "x")])])
          ("properties" :: ["destinationFqdns"]) (.arr [])]
        = ⟨[], [], []⟩) :=
  ⟨by decide, by decide,
    null_empty_equiv_dict_path
      (.obj [("type", .str "T"), ("name", .str "A"),
        ("properties", .obj [("destinationFqdns", .str "x")])])
      ("properties") (["destinationFqdns"]) (by decide) (by decide)⟩

end AzFw
